import Mathlib

/-!
Verification of the plakar snapshot engine against its specification.

The Go sources are shallowly embedded: pure functions become Lean
functions, Go maps become association lists, machine integers become
`Nat`, byte slices become `List Nat`, and fallible functions return
`Option` or `Except`.  External primitives from the Go standard library
and golang.org/x (AES-GCM, scrypt) are abstracted as parameters with
their documented contracts; everything written in the repository itself
is translated directly from the source.
-/

namespace Plakar

/-- Split a character list on a separator, mirroring Go `strings.Split`
with a one-character separator (`strings.Split("", sep) = [""]`). -/
def splitChar (sep : Char) : List Char → List (List Char)
  | [] => [[]]
  | c :: cs =>
    match splitChar sep cs with
    | [] => [[]]
    | a :: rest => if c = sep then [] :: a :: rest else (c :: a) :: rest

/-- Go `strings.Split(s, sep)` for one-character separators. -/
def splitOnSep (sep : Char) (s : String) : List String :=
  (splitChar sep s.data).map String.mk

/-- The whitespace set of Go `strings.TrimSpace` restricted to ASCII
(space, tab, newline, vertical tab, form feed, carriage return). -/
def isGoSpace (c : Char) : Bool :=
  c = ' ' || c = '\t' || c = '\n' || c = Char.ofNat 11 || c = Char.ofNat 12 || c = '\r'

/-- Go `strings.TrimSpace` on the underlying character list. -/
def trimSpaceList (cs : List Char) : List Char :=
  ((cs.dropWhile isGoSpace).reverse.dropWhile isGoSpace).reverse

/-- Go `strings.TrimSpace`. -/
def trimSpace (s : String) : String := String.mk (trimSpaceList s.data)

/-- One step of the Go `path.Clean` element loop: skip empty and `"."`
atoms, resolve `".."` against the output buffer, append anything else. -/
def cleanAtomsStep (rooted : Bool) (acc : List String) (atom : String) : List String :=
  if atom = "" ∨ atom = "." then acc
  else if atom = ".." then
    if acc ≠ [] ∧ acc.getLast? ≠ some ".." then acc.dropLast
    else if rooted then acc
    else acc ++ [".."]
  else acc ++ [atom]

/-- Join path atoms with a separator (the inverse of `splitChar` on
separator-free pieces). -/
def joinAtoms (sep : Char) : List (List Char) → List Char
  | [] => []
  | [a] => a
  | a :: rest => a ++ sep :: joinAtoms sep rest

/-- Rootedness flag and cleaned atom list of a non-empty path. -/
def cleanParts (p : String) : Bool × List String :=
  let rooted := p.data.head? = some '/'
  (rooted, ((splitChar '/' p.data).map String.mk).foldl (cleanAtomsStep rooted) [])

/-- Reassemble a cleaned path from its rootedness flag and atoms. -/
def renderClean (rooted : Bool) (out : List String) : String :=
  if rooted then String.mk ('/' :: joinAtoms '/' (out.map String.data))
  else if out = [] then "." else String.mk (joinAtoms '/' (out.map String.data))

/-- Go `filepath.Clean` on a slash-separated (unix) path, composed with
`filepath.ToSlash` (the identity on unix). -/
def cleanPath (p : String) : String :=
  if p = "" then "." else renderClean (cleanParts p).1 (cleanParts p).2

/-- Invariant of the `path.Clean` output buffer: no empty or `"."`
atoms, no separators inside atoms, all `".."` atoms at the front, and
none at all for a rooted path. -/
def outInv (rooted : Bool) (out : List String) : Prop :=
  (∀ a ∈ out, a ≠ "" ∧ a ≠ "." ∧ '/' ∉ a.data) ∧
  ∃ k rest, out = List.replicate k ".." ++ rest ∧ ".." ∉ rest ∧ (rooted = true → k = 0)

/-! ## The VFS index (`vfs.Filesystem`, `src/unnamed/part_001`) -/

/-- Modelled from the spec: the `FileInfo` record produced by the
importer (the type itself lives outside the provided sources).  Only
the fields the VFS code reads are kept: device and inode numbers
(forming the `"{dev},{ino}"` inode key), the size, and the file kind
tested through `Mode().IsRegular()` / `Mode().IsDir()`. -/
inductive FileMode where
  | regular
  | directory
  | other
deriving DecidableEq, Repr

structure FileInfo where
  dev : Nat
  ino : Nat
  size : Nat
  mode : FileMode
deriving DecidableEq, Repr

instance : Inhabited FileInfo := ⟨⟨0, 0, 0, .other⟩⟩

/-- `vfs.FilesystemNode`: an inode-key string plus a children map
(modelled as an association list keyed by child atom name). -/
inductive FsNode where
  | mk (inode : String) (children : List (String × FsNode))

def FsNode.inode : FsNode → String
  | .mk i _ => i

def FsNode.children : FsNode → List (String × FsNode)
  | .mk _ c => c

/-- Update-or-append in an association list (Go map assignment). -/
def setAssoc {β : Type} : List (String × β) → String → β → List (String × β)
  | [], name, v => [(name, v)]
  | (k, old) :: rest, name, v =>
    if k = name then (k, v) :: rest else (k, old) :: setAssoc rest name v

/-- `vfs.Filesystem` with its maps as association lists.  The unexported
Go fields (`pathnameID`, `pathnamesInverse`, `statInfo`, the counters)
are carried alongside the exported ones. -/
structure Filesystem where
  Root : FsNode
  Inodes : List (String × FileInfo)
  Pathnames : List (String × Nat)
  pathnameID : Nat
  pathnamesInverse : List (Nat × String)
  statInfo : List (String × FileInfo)
  Symlinks : List (String × String)
  nFiles : Nat
  nDirectories : Nat
  totalSize : Nat

/-- `vfs.NewFilesystem`. -/
def newFilesystem : Filesystem :=
  { Root := .mk "" []
    Inodes := []
    Pathnames := []
    pathnameID := 0
    pathnamesInverse := []
    statInfo := []
    Symlinks := []
    nFiles := 0
    nDirectories := 0
    totalSize := 0 }

/-- `Filesystem.addPathname`: interns a pathname.  Note that the Go
source returns the zero value of `pathnameId` (declared by the failed
map probe) in the not-yet-interned branch. -/
def Filesystem.addPathname (fs : Filesystem) (pathname : String) : Nat × Filesystem :=
  match fs.Pathnames.lookup pathname with
  | some pathnameId => (pathnameId, fs)
  | none =>
    (0, { fs with
          Pathnames := (pathname, fs.pathnameID) :: fs.Pathnames
          pathnamesInverse := (fs.pathnameID, pathname) :: fs.pathnamesInverse
          pathnameID := fs.pathnameID + 1 })

/-- `Filesystem.GetPathnameID` (zero value when absent). -/
def Filesystem.GetPathnameID (fs : Filesystem) (pathname : String) : Nat :=
  (fs.Pathnames.lookup pathname).getD 0

/-- The inode key `fmt.Sprintf("%d,%d", dev, ino)`. -/
def inodeKeyOf (fi : FileInfo) : String :=
  toString fi.dev ++ "," ++ toString fi.ino

/-- `Filesystem.addInode`: inserts the record under its inode key if
new, accumulating `totalSize`; returns the key. -/
def Filesystem.addInode (fs : Filesystem) (fi : FileInfo) : String × Filesystem :=
  let key := inodeKeyOf fi
  match fs.Inodes.lookup key with
  | some _ => (key, fs)
  | none =>
    (key, { fs with
            Inodes := (key, fi) :: fs.Inodes
            totalSize := fs.totalSize + fi.size })

/-- Descend and create the node path for `buildTree`: missing children
are created with an empty inode key; the final node gets `inodeKey`. -/
def insertNodePath : FsNode → List String → String → FsNode
  | .mk _ children, [], key => .mk key children
  | .mk ino children, atom :: rest, key =>
    let child := (children.lookup atom).getD (.mk "" [])
    .mk ino (setAssoc children atom (insertNodePath child rest key))

/-- `Filesystem.buildTree`: registers the inode, interns the cleaned
pathname, inserts the tree node, records `statInfo`, and bumps the
`nFiles` / `nDirectories` counter by the kind of the argument. -/
def Filesystem.buildTree (fs : Filesystem) (pathname : String) (fi : FileInfo) :
    Filesystem :=
  let p1 := fs.addInode fi
  let inodeKey := p1.1
  let fs1 := p1.2
  let pn := cleanPath pathname
  let fs2 := (fs1.addPathname pn).2
  let root :=
    if pn = "/" then FsNode.mk inodeKey fs2.Root.children
    else insertNodePath fs2.Root ((splitOnSep '/' pn).drop 1) inodeKey
  { fs2 with
    Root := root
    statInfo := setAssoc fs2.statInfo pn fi
    nFiles := fs2.nFiles + (if fi.mode = .regular then 1 else 0)
    nDirectories := fs2.nDirectories + (if fi.mode = .directory then 1 else 0) }

/-- A sequence of `buildTree` operations applied in order. -/
def applyBuilds (fs : Filesystem) (ops : List (String × FileInfo)) : Filesystem :=
  ops.foldl (fun acc op => acc.buildTree op.1 op.2) fs

/-- Errors surfaced by the VFS lookup functions: `os.ErrNotExist` and
`os.ErrInvalid` (the not-a-directory case). -/
inductive VfsErr where
  | notFound
  | invalid
deriving DecidableEq, Repr

/-- The descent loop of `Filesystem.Lookup`: follow atoms through the
children maps, failing with `os.ErrNotExist` on a missing child. -/
def lookupLoop : FsNode → List String → Except VfsErr FsNode
  | p, [] => .ok p
  | p, atom :: rest =>
    match p.children.lookup atom with
    | none => .error .notFound
    | some tmp => lookupLoop tmp rest

/-- `Filesystem.Lookup`: clean the path, map `"."` to `"/"`, return the
root for `"/"`, otherwise split on `/`, drop the first element, and
descend. -/
def Filesystem.Lookup (fs : Filesystem) (pathname : String) : Except VfsErr FsNode :=
  let c0 := cleanPath pathname
  let c := if c0 = "." then "/" else c0
  if c = "/" then .ok fs.Root
  else lookupLoop fs.Root ((splitOnSep '/' c).drop 1)

/-- Pure atom-by-atom descent used to state properties of `Lookup`. -/
def resolve : FsNode → List String → Option FsNode
  | n, [] => some n
  | n, atom :: rest =>
    match n.children.lookup atom with
    | none => none
    | some c => resolve c rest

/-- The atom list `Lookup` actually descends for a given argument. -/
def lookupAtoms (pathname : String) : List String :=
  let c0 := cleanPath pathname
  let c := if c0 = "." then "/" else c0
  if c = "/" then [] else (splitOnSep '/' c).drop 1

/-- Go string comparison: lexicographic over the character sequence
(byte order on valid UTF-8 agrees with code-point order). -/
def charListLt : List Char → List Char → Bool
  | [], [] => false
  | [], _ :: _ => true
  | _ :: _, [] => false
  | a :: as, b :: bs => if a < b then true else if b < a then false else charListLt as bs

/-- Go `s < t` on strings. -/
def sLt (a b : String) : Bool := charListLt a.data b.data

/-- `sort.Strings`, modelled as an insertion sort for the total order
induced by Go string comparison. -/
def sortStrings (l : List String) : List String :=
  List.insertionSort (fun a b : String => sLt b a = false) l

/-- `Filesystem.LookupChildren`: clean the path, resolve the node via
`Lookup`, reject non-directories (`os.ErrInvalid`), and return the
sorted child atom names.  A node whose inode key is not in `Inodes`
gets the zero `FileInfo` value, which is not a directory. -/
def Filesystem.LookupChildren (fs : Filesystem) (pathname : String) :
    Except VfsErr (List String) :=
  let c0 := cleanPath pathname
  let c := if c0 = "." then "/" else c0
  match fs.Lookup c with
  | .error _ => .error .notFound
  | .ok parent =>
    let parentInode := (fs.Inodes.lookup parent.inode).getD default
    if parentInode.mode = .directory then
      .ok (sortStrings (parent.children.map Prod.fst))
    else .error .invalid

/-! ### Tree traversals (reindex and reachable-node counting)

These recurse through the nested `FsNode` tree; Lean compiles them by
well-founded recursion on `sizeOf`. -/

mutual
/-- `Filesystem._reindex`, structurally: record the node inode in
`statInfo`, add its size to the accumulated total, then walk the
children, recursing only into those whose inode record is a
directory. -/
def reindexNode (inodes : List (String × FileInfo)) (pathname : String) (node : FsNode)
    (st : List (String × FileInfo)) (total : Nat) : List (String × FileInfo) × Nat :=
  match node with
  | .mk ino children =>
    let fi := (inodes.lookup ino).getD default
    reindexKids inodes pathname children (setAssoc st pathname fi) (total + fi.size)

def reindexKids (inodes : List (String × FileInfo)) (pathname : String) :
    List (String × FsNode) → List (String × FileInfo) → Nat →
    List (String × FileInfo) × Nat
  | [], st, total => (st, total)
  | (name, child) :: rest, st, total =>
    let childPath := cleanPath (pathname ++ "/" ++ name)
    let cfi := (inodes.lookup child.inode).getD default
    if cfi.mode = .directory then
      let p := reindexNode inodes childPath child st total
      reindexKids inodes pathname rest p.1 p.2
    else
      reindexKids inodes pathname rest (setAssoc st childPath cfi) total
end

/-- `Filesystem.reindex`: rebuild `pathnamesInverse` from `Pathnames`,
reset `statInfo`, and walk from `"/"`.  The walk adds to the current
`totalSize` (the Go field is lowercase, hence zero right after
deserialization) and, per the source, only the sizes of nodes it
recurses into are accumulated. -/
def Filesystem.reindex (fs : Filesystem) : Filesystem :=
  let inv := fs.Pathnames.map (fun p => (p.2, p.1))
  let res := reindexNode fs.Inodes "/" fs.Root [] fs.totalSize
  { fs with
    pathnamesInverse := inv
    statInfo := res.1
    totalSize := res.2 }

/-- Deserialization (`NewFilesystemFromBytes`) restores only the
exported fields; the unexported ones come back as zero values, after
which `reindex` runs. -/
def deserialized (fs : Filesystem) : Filesystem :=
  Filesystem.reindex
    { fs with
      pathnameID := 0
      pathnamesInverse := []
      statInfo := []
      nFiles := 0
      nDirectories := 0
      totalSize := 0 }

/-- The kind of a tree node, read off its inode record; a missing
record yields `none`. -/
def nodeMode (inodes : List (String × FileInfo)) (n : FsNode) : Option FileMode :=
  (inodes.lookup n.inode).map FileInfo.mode

mutual
/-- Number of nodes reachable from `n` (itself included) satisfying a
predicate on the node. -/
def countNode (pred : FsNode → Bool) : FsNode → Nat
  | .mk ino children =>
    (if pred (.mk ino children) then 1 else 0) + countKids pred children

def countKids (pred : FsNode → Bool) : List (String × FsNode) → Nat
  | [] => 0
  | (_, c) :: rest => countNode pred c + countKids pred rest
end

/-- Concrete node and filesystem for the C8 counterexample: the root
has a single child `"b"`. -/
def nodeB8 : FsNode := .mk "k" []

def exFs8 : Filesystem := { newFilesystem with Root := .mk "r" [("b", nodeB8)] }

/-- Concrete filesystem for the C9 witness: a directory root with two
regular children `"b"` and `"a"`. -/
def fiDir9 : FileInfo := ⟨0, 0, 0, .directory⟩

def fiReg9 : FileInfo := ⟨1, 7, 3, .regular⟩

def exFs9 : Filesystem :=
  { newFilesystem with
    Root := .mk "0,0" [("b", .mk "1,7" []), ("a", .mk "1,7" [])]
    Inodes := [("0,0", fiDir9), ("1,7", fiReg9)] }

mutual
/-- Sum over all nodes reachable from `n` (itself included) of a value
computed from the node. -/
def sumNode (f : FsNode → Nat) : FsNode → Nat
  | .mk ino children => f (.mk ino children) + sumKids f children

def sumKids (f : FsNode → Nat) : List (String × FsNode) → Nat
  | [] => 0
  | (_, c) :: rest => sumNode f c + sumKids f rest
end

/-- Does the inode record of a node (zero value when missing) have the
given mode?  An unbuilt intermediate node has inode key `""` and no
record. -/
def nodeHasMode (inodes : List (String × FileInfo)) (m : FileMode) (n : FsNode) : Bool :=
  match inodes.lookup n.inode with
  | some fi => fi.mode = m
  | none => false

/-- Size of the inode record of a node (zero value when missing). -/
def inodeSizeOf (inodes : List (String × FileInfo)) (n : FsNode) : Nat :=
  ((inodes.lookup n.inode).getD default).size

/-- Concrete build inputs for the C7 counterexample: a directory root
and a regular file built twice. -/
def fiDir7 : FileInfo := ⟨0, 0, 10, .directory⟩

def fiReg7 : FileInfo := ⟨1, 1, 5, .regular⟩

def exFs7 : Filesystem :=
  applyBuilds newFilesystem [("/", fiDir7), ("/a", fiReg7), ("/a", fiReg7)]

/-- Concrete filesystem for the C6 failing input: a directory root of
size 10 with one regular child of size 5. -/
def exFs6 : Filesystem := applyBuilds newFilesystem [("/", fiDir7), ("/a", fiReg7)]

/-- `exFs6` as it comes back from `msgpack` deserialization, before
`reindex`: the unexported fields are zero values. -/
def exFs6wire : Filesystem :=
  { exFs6 with
    pathnameID := 0
    pathnamesInverse := []
    statInfo := []
    nFiles := 0
    nDirectories := 0
    totalSize := 0 }


/-! ## Snapshot header sort keys (`header.ParseSortKeys`, `src/unnamed/part_000`) -/

/-- The two error kinds `ParseSortKeys` returns. -/
inductive SortKeyErr where
  | duplicateKey (key : String)
  | invalidSortKey (key : String)
deriving DecidableEq, Repr

/-- The exported field names of the `Header` struct, in declaration
order: `reflect.TypeOf(Header{}).FieldByName` succeeds exactly on
these. -/
def headerFieldNames : List String :=
  ["SnapshotID", "Version", "CreationTime", "CreationDuration", "Identity",
   "Category", "Tags", "Context", "Importer", "Root", "Index", "Metadata",
   "Statistics", "Errors", "Summary"]

/-- `key[1:]` when the key has the `-` direction marker, else the key
itself (`strings.HasPrefix(key, "-")`). -/
def stripDash (s : String) : String :=
  match s.data with
  | '-' :: rest => String.mk rest
  | _ => s

/-- Trimmed-and-stripped base name of a raw comma-separated entry. -/
def baseOf (s : String) : String := stripDash (trimSpace s)

/-- The loop of `ParseSortKeys`: duplicate check (against the set of
bases already seen) before the field-name check, accumulating valid
keys in input order. -/
def parseSortKeysLoop :
    List String → List String → List String → Except SortKeyErr (List String)
  | [], _, validKeys => .ok validKeys
  | k :: rest, seen, validKeys =>
    let key := trimSpace k
    let lookupKey := stripDash key
    if lookupKey ∈ seen then .error (.duplicateKey key)
    else if lookupKey ∉ headerFieldNames then .error (.invalidSortKey key)
    else parseSortKeysLoop rest (lookupKey :: seen) (validKeys ++ [key])

/-- `header.ParseSortKeys`: empty input yields no keys, otherwise split
on `,` and run the loop. -/
def parseSortKeys (s : String) : Except SortKeyErr (List String) :=
  if s = "" then .ok []
  else parseSortKeysLoop (splitOnSep ',' s) [] []

/-- Success predicate of the `ParseSortKeys` loop. -/
def keysOK : List String → List String → Prop
  | [], _ => True
  | k :: rest, seen =>
    baseOf k ∉ seen ∧ baseOf k ∈ headerFieldNames ∧ keysOK rest (baseOf k :: seen)

/-! ## The snapshot header (`header.Header`, `src/unnamed/part_000`) -/

/-- `objects.Checksum`, a `[32]byte`. -/
abbrev Checksum := {l : List Nat // l.length = 32}

structure Identity where
  identifier : List Nat
  publicKey : List Nat
deriving DecidableEq

structure KeyValue where
  key : String
  value : String
deriving DecidableEq

structure Importer where
  type : String
  origin : String
  directory : String
deriving DecidableEq

/-- Modelled from the spec: `vfs.Summary` (not among the provided
sources) carries the aggregate counts — files, directories, total
size. -/
structure Summary where
  files : Nat
  directories : Nat
  totalSize : Nat
deriving DecidableEq

/-- `header.Header`.  `time.Time` and `time.Duration` are modelled as
`Nat` instants/spans. -/
structure Header where
  snapshotID : Checksum
  version : String
  creationTime : Nat
  creationDuration : Nat
  identity : Identity
  category : String
  tags : List String
  context : List KeyValue
  importer : Importer
  root : Checksum
  index : Checksum
  metadata : Checksum
  statistics : Checksum
  errors : Checksum
  summary : Summary
deriving DecidableEq

/-- The all-zero checksum (`[32]byte{}`). -/
def zeroChecksum : Checksum := ⟨List.replicate 32 0, by simp⟩

/-- `header.NewHeader` with the ambient clock and storage version as
parameters. -/
def NewHeader (indexID : Checksum) (now : Nat) (version : String) : Header :=
  { snapshotID := indexID
    version := version
    creationTime := now
    creationDuration := 0
    identity := ⟨[], []⟩
    category := "default"
    tags := []
    context := []
    importer := ⟨"", "", ""⟩
    root := zeroChecksum
    index := zeroChecksum
    metadata := zeroChecksum
    statistics := zeroChecksum
    errors := zeroChecksum
    summary := ⟨0, 0, 0⟩ }

/-- `Header.SetContext` appends without deduplication. -/
def Header.SetContext (h : Header) (key value : String) : Header :=
  { h with context := h.context ++ [⟨key, value⟩] }

/-- `Header.GetContext` returns the first match or the empty string. -/
def Header.GetContext (h : Header) (key : String) : String :=
  match h.context.find? (fun kv => kv.key = key) with
  | some kv => kv.value
  | none => ""

/-! ### The comparison closure of `SortHeaders` -/

/-- A three-way step: `some r` means the comparison decided the order
(`r` is the value the Go closure returns), `none` means a tie that
falls through to the next sort key. -/
def optStep (cmp : Option Bool) (rest : Bool) : Bool :=
  match cmp with
  | some r => r
  | none => rest

/-- The `CreationTime` case: decide on `Before` unless `Equal`. -/
def natCmp (x y : Nat) : Option Bool :=
  if x = y then none else some (decide (x < y))

/-- The `Version` case: decide on Go string `<` unless equal. -/
def strCmp (x y : String) : Option Bool :=
  if x = y then none else some (sLt x y)

/-- The `SnapshotID` case: first differing byte decides, all-equal
falls through. -/
def bytesCmp : List Nat → List Nat → Option Bool
  | x :: xs, y :: ys => if x = y then bytesCmp xs ys else some (decide (x < y))
  | _, _ => none

/-- The `Tags` case: first differing tag decides, then unequal length
decides, else fall through. -/
def tagsCmp : List String → List String → Option Bool
  | x :: xs, y :: ys => if x = y then tagsCmp xs ys else some (sLt x y)
  | xs, ys => if xs.length = ys.length then none else some (decide (xs.length < ys.length))

/-- One `switch key` arm of the `sort.Slice` closure; an unrecognized
key makes the closure return `false` immediately (the source also
records an `InvalidSortKey` error, which does not affect the
ordering). -/
def keyCmp (key : String) (a b : Header) : Option Bool :=
  if key = "CreationTime" then natCmp a.creationTime b.creationTime
  else if key = "-CreationTime" then natCmp b.creationTime a.creationTime
  else if key = "SnapshotID" then bytesCmp a.snapshotID.val b.snapshotID.val
  else if key = "-SnapshotID" then bytesCmp b.snapshotID.val a.snapshotID.val
  else if key = "Version" then strCmp a.version b.version
  else if key = "-Version" then strCmp b.version a.version
  else if key = "Tags" then tagsCmp a.tags b.tags
  else if key = "-Tags" then tagsCmp b.tags a.tags
  else some false

/-- The `less` closure of `SortHeaders`: lexicographic over the sort
keys, `false` once the keys are exhausted. -/
def headerLess : List String → Header → Header → Bool
  | [], _, _ => false
  | key :: ks, a, b => optStep (keyCmp key a b) (headerLess ks a b)

/-- `header.SortHeaders`, with `sort.Slice` modelled as an insertion
sort for the total preorder `¬ less b a` induced by the closure (Go's
pdqsort is deterministic, returns a `less`-consistent ordering, and
leaves an already-sorted slice unchanged, which this model shares). -/
def SortHeaders (headers : List Header) (sortKeys : List String) : List Header :=
  @List.insertionSort Header (fun a b => headerLess sortKeys b a = false)
    (fun _ _ => instDecidableEqBool _ _) headers

/-- Property bundle making a comparison step usable in a lexicographic
strict weak order: irreflexive ties, antisymmetric decisions, ties are
congruences, and decisions compose transitively. -/
def CmpGood (cmp : Header → Header → Option Bool) : Prop :=
  (∀ a, cmp a a = none) ∧
  (∀ a b t, cmp a b = some t → cmp b a = some (!t)) ∧
  (∀ a b, cmp a b = none → ∀ c, cmp a c = cmp b c ∧ cmp c a = cmp c b) ∧
  (∀ a b c, cmp a b = some true → cmp b c = some true → cmp a c = some true)

/-- The same bundle for a comparison on a component type, with ties
implying equality. -/
def BaseCmpGood {β : Type} (cmp : β → β → Option Bool) : Prop :=
  (∀ x, cmp x x = none) ∧
  (∀ x y t, cmp x y = some t → cmp y x = some (!t)) ∧
  (∀ x y, cmp x y = none → x = y) ∧
  (∀ x y z, cmp x y = some true → cmp y z = some true → cmp x z = some true)

/-- Two headers differing only in creation time, for the C5 witness. -/
def exHdr1 : Header := NewHeader zeroChecksum 1 "1.0"

def exHdr2 : Header := NewHeader zeroChecksum 2 "1.0"

/-! ## Header serialization (`Header.Serialize` / `NewFromBytes`)

`msgpack.Marshal`/`Unmarshal` (an external library) is modelled as a
deterministic self-delimiting tagged encoding of the `Header` record:
integers as base-128 varints, strings and lists length-prefixed, fields
in declaration order — the contract the source relies on. -/

/-- Parse a base-128 varint. -/
def parseNat : List Nat → Option (Nat × List Nat)
  | [] => none
  | b :: rest =>
    if b < 128 then some (b, rest)
    else
      match parseNat rest with
      | some (m, r) => some (m * 128 + (b - 128), r)
      | none => none

/-- Encode a natural number as a base-128 varint (low digits first,
high bit marks continuation). -/
def encNat (n : Nat) : List Nat :=
  if n < 128 then [n] else (n % 128 + 128) :: encNat (n / 128)
termination_by n
decreasing_by exact Nat.div_lt_self (by omega) (by omega)

/-- Run a parser a fixed number of times. -/
def parseCount {α : Type} (p : List Nat → Option (α × List Nat)) :
    Nat → List Nat → Option (List α × List Nat)
  | 0, l => some ([], l)
  | n + 1, l =>
    match p l with
    | none => none
    | some (x, r) =>
      match parseCount p n r with
      | none => none
      | some (xs, r2) => some (x :: xs, r2)

/-- Length-prefixed list encoding. -/
def encListWith {α : Type} (enc : α → List Nat) (xs : List α) : List Nat :=
  encNat xs.length ++ (xs.map enc).flatten

def parseListWith {α : Type} (p : List Nat → Option (α × List Nat)) (l : List Nat) :
    Option (List α × List Nat) :=
  match parseNat l with
  | none => none
  | some (n, r) => parseCount p n r

def encChar (c : Char) : List Nat := encNat c.toNat

def parseChar (l : List Nat) : Option (Char × List Nat) :=
  match parseNat l with
  | none => none
  | some (n, r) => some (Char.ofNat n, r)

def encString (s : String) : List Nat := encListWith encChar s.data

def parseString (l : List Nat) : Option (String × List Nat) :=
  match parseListWith parseChar l with
  | none => none
  | some (cs, r) => some (String.mk cs, r)

def encChecksum (c : Checksum) : List Nat := encListWith encNat c.val

def parseChecksum (l : List Nat) : Option (Checksum × List Nat) :=
  match parseListWith parseNat l with
  | none => none
  | some (ds, r) => if h : ds.length = 32 then some (⟨ds, h⟩, r) else none

def encIdentity (i : Identity) : List Nat :=
  encListWith encNat i.identifier ++ encListWith encNat i.publicKey

def parseIdentity (l : List Nat) : Option (Identity × List Nat) :=
  match parseListWith parseNat l with
  | none => none
  | some (idf, l1) =>
    match parseListWith parseNat l1 with
    | none => none
    | some (pk, l2) => some (⟨idf, pk⟩, l2)

def encKeyValue (kv : KeyValue) : List Nat := encString kv.key ++ encString kv.value

def parseKeyValue (l : List Nat) : Option (KeyValue × List Nat) :=
  match parseString l with
  | none => none
  | some (k, l1) =>
    match parseString l1 with
    | none => none
    | some (v, l2) => some (⟨k, v⟩, l2)

def encImporter (im : Importer) : List Nat :=
  encString im.type ++ encString im.origin ++ encString im.directory

def parseImporter (l : List Nat) : Option (Importer × List Nat) :=
  match parseString l with
  | none => none
  | some (t, l1) =>
    match parseString l1 with
    | none => none
    | some (o, l2) =>
      match parseString l2 with
      | none => none
      | some (d, l3) => some (⟨t, o, d⟩, l3)

def encSummary (s : Summary) : List Nat :=
  encNat s.files ++ encNat s.directories ++ encNat s.totalSize

def parseSummary (l : List Nat) : Option (Summary × List Nat) :=
  match parseNat l with
  | none => none
  | some (f, l1) =>
    match parseNat l1 with
    | none => none
    | some (d, l2) =>
      match parseNat l2 with
      | none => none
      | some (t, l3) => some (⟨f, d, t⟩, l3)

/-- `Header.Serialize`: all fields in declaration order. -/
def Header.serialize (h : Header) : List Nat :=
  encChecksum h.snapshotID ++ encString h.version ++ encNat h.creationTime ++
  encNat h.creationDuration ++ encIdentity h.identity ++ encString h.category ++
  encListWith encString h.tags ++ encListWith encKeyValue h.context ++
  encImporter h.importer ++ encChecksum h.root ++ encChecksum h.index ++
  encChecksum h.metadata ++ encChecksum h.statistics ++ encChecksum h.errors ++
  encSummary h.summary

def parseHeader (l0 : List Nat) : Option (Header × List Nat) :=
  match parseChecksum l0 with
  | none => none
  | some (sid, l1) =>
    match parseString l1 with
    | none => none
    | some (ver, l2) =>
      match parseNat l2 with
      | none => none
      | some (ct, l3) =>
        match parseNat l3 with
        | none => none
        | some (cd, l4) =>
          match parseIdentity l4 with
          | none => none
          | some (idn, l5) =>
            match parseString l5 with
            | none => none
            | some (cat, l6) =>
              match parseListWith parseString l6 with
              | none => none
              | some (tags, l7) =>
                match parseListWith parseKeyValue l7 with
                | none => none
                | some (ctx, l8) =>
                  match parseImporter l8 with
                  | none => none
                  | some (imp, l9) =>
                    match parseChecksum l9 with
                    | none => none
                    | some (rt, l10) =>
                      match parseChecksum l10 with
                      | none => none
                      | some (ix, l11) =>
                        match parseChecksum l11 with
                        | none => none
                        | some (md, l12) =>
                          match parseChecksum l12 with
                          | none => none
                          | some (st, l13) =>
                            match parseChecksum l13 with
                            | none => none
                            | some (er, l14) =>
                              match parseSummary l14 with
                              | none => none
                              | some (sm, l15) =>
                                some (⟨sid, ver, ct, cd, idn, cat, tags, ctx, imp, rt, ix, md, st, er, sm⟩, l15)

/-- `header.NewFromBytes`: decode one `Header` value. -/
def NewFromBytes (l : List Nat) : Option Header :=
  match parseHeader l with
  | none => none
  | some (h, _) => some h

/-! ## Encryption: `src/encryption/symmetric.go` -/

/-- `saltSize` constant: the stored secret starts with a 16-byte salt. -/
def saltSize : Nat := 16

/-- `chunkSize` constant: plaintext bytes per encrypted chunk. -/
def chunkSize : Nat := 1024

/-- Nonce size of Go's standard GCM construction (`gcm.NonceSize()`). -/
def gcmNonceSize : Nat := 12

/-- Authentication-tag length of GCM (`gcm.Overhead()`). -/
def gcmOverhead : Nat := 16

/-- `aes.NewCipher` succeeds exactly for AES-128/192/256 key lengths. -/
def aesKeyOk (key : List Nat) : Bool :=
  key.length == 16 || key.length == 24 || key.length == 32

/-- Go's `cipher.AEAD` interface as used by symmetric.go: `Seal(nil, nonce, plaintext, nil)`
and `Open(nil, nonce, ciphertext, nil)`, abstracted as functions of key, nonce and payload.
The AEAD contract (open-after-seal round trip, ciphertext length = plaintext length +
overhead) is taken as a hypothesis where a theorem needs it. -/
structure AEAD where
  Seal : List Nat → List Nat → List Nat → List Nat
  Open : List Nat → List Nat → List Nat → Option (List Nat)

set_option linter.unusedVariables false in
/-- The plaintext chunking performed by the `r.Read(buf)` loop of `EncryptStream`:
each read of the source returns the next `chunkSize` bytes (fewer on the last read). -/
def chunkify (s : List Nat) : List (List Nat) :=
  if h : s = [] then [] else s.take chunkSize :: chunkify (s.drop chunkSize)
termination_by s.length
decreasing_by
  have hpos : 0 < s.length := List.length_pos.mpr h
  have hcs : chunkSize = 1024 := rfl
  rw [List.length_drop]
  omega

/-- `EncryptStream`, with the random draws (subkey, subkey nonce, data nonce) taken as
parameters: after `aes.NewCipher` validates both key lengths, the output stream is
`subkeyNonce ++ gcm.Seal(key, subkeyNonce, subkey) ++ dataNonce` followed by one sealed
chunk per read, every chunk sealed with the same data nonce. -/
def encryptStream (G : AEAD) (key subkey subkeyNonce dataNonce s : List Nat) :
    Option (List Nat × List (List Nat)) :=
  if aesKeyOk key && aesKeyOk subkey then
    some (subkeyNonce ++ G.Seal key subkeyNonce subkey ++ dataNonce,
          (chunkify s).map (G.Seal subkey dataNonce))
  else none

/-- Body of the `DecryptStream` read loop: open each sealed chunk with the data nonce
and concatenate the plaintexts; an authentication failure aborts the stream. -/
def openChunks (G : AEAD) (subkey dataNonce : List Nat) : List (List Nat) → Option (List Nat)
  | [] => some []
  | c :: cs =>
    match G.Open subkey dataNonce c with
    | none => none
    | some m =>
      match openChunks G subkey dataNonce cs with
      | none => none
      | some rest => some (m ++ rest)

/-- `DecryptStream`: `io.ReadFull` the subkey nonce (`gcmNonceSize` bytes) and the sealed
subkey (`gcmOverhead + 32` bytes), open the subkey with the main key, `io.ReadFull` the
data nonce, then open the chunks read from the rest of the stream. A header shorter than
`gcmNonceSize + (gcmOverhead + 32) + gcmNonceSize` bytes fails the `ReadFull` calls. -/
def decryptStream (G : AEAD) (key header : List Nat) (chunks : List (List Nat)) :
    Option (List Nat) :=
  if aesKeyOk key then
    if gcmNonceSize + (gcmOverhead + 32) + gcmNonceSize ≤ header.length then
      match G.Open key (header.take gcmNonceSize)
          ((header.drop gcmNonceSize).take (gcmOverhead + 32)) with
      | none => none
      | some subkey =>
        if aesKeyOk subkey then
          openChunks G subkey
            (((header.drop gcmNonceSize).drop (gcmOverhead + 32)).take gcmNonceSize) chunks
        else none
    else none
  else none

/-- A concrete AEAD satisfying the contract: seal appends `gcmOverhead` zero bytes,
open strips them. -/
def G0 : AEAD :=
  ⟨fun _ _ m => m ++ List.replicate gcmOverhead 0,
   fun _ _ c => if gcmOverhead ≤ c.length then some (c.take (c.length - gcmOverhead)) else none⟩

/-- `base64.StdEncoding` alphabet. -/
def b64Table : List Char :=
  "ABCDEFGHIJKLMNOPQRSTUVWXYZabcdefghijklmnopqrstuvwxyz0123456789+/".data

/-- Alphabet character of a 6-bit value. -/
def encB64Char (d : Nat) : Char := b64Table.getD d 'A'

/-- Position of a character in the alphabet, scanning from index `i`. -/
def decB64CharAux : List Char → Nat → Char → Option Nat
  | [], _, _ => none
  | t :: ts, i, c => if t = c then some i else decB64CharAux ts (i + 1) c

/-- Inverse alphabet lookup. -/
def decB64Char (c : Char) : Option Nat := decB64CharAux b64Table 0 c

/-- `base64.StdEncoding.EncodeToString`: each 3-byte group becomes 4 alphabet
characters; a trailing 1- or 2-byte group is padded with `=`. -/
def encB64 : List Nat → List Char
  | [] => []
  | [a] => [encB64Char (a / 4), encB64Char (a % 4 * 16), '=', '=']
  | [a, b] => [encB64Char (a / 4), encB64Char (a % 4 * 16 + b / 16), encB64Char (b % 16 * 4), '=']
  | a :: b :: c :: rest =>
    encB64Char (a / 4) :: encB64Char (a % 4 * 16 + b / 16) ::
      encB64Char (b % 16 * 4 + c / 64) :: encB64Char (c % 64) :: encB64 rest

/-- `base64.StdEncoding.DecodeString`: decode 4-character groups, `=` padding only at
the very end; any other shape is a `CorruptInputError`. -/
def decB64 : List Char → Option (List Nat)
  | [] => some []
  | c1 :: c2 :: c3 :: c4 :: rest =>
    match decB64Char c1, decB64Char c2 with
    | some d1, some d2 =>
      if c3 = '=' then
        if c4 = '=' then
          if rest = [] then some [d1 * 4 + d2 / 16] else none
        else none
      else
        match decB64Char c3 with
        | none => none
        | some d3 =>
          if c4 = '=' then
            if rest = [] then some [d1 * 4 + d2 / 16, d2 % 16 * 16 + d3 / 4] else none
          else
            match decB64Char c4 with
            | none => none
            | some d4 =>
              match decB64 rest with
              | none => none
              | some bs => some ((d1 * 4 + d2 / 16) :: (d2 % 16 * 16 + d3 / 4) :: (d3 % 4 * 64 + d4) :: bs)
    | _, _ => none
  | _ => none

/-- Error results of `DeriveSecret`: a base64 decoding error or the
"passphrase does not match" error. -/
inductive DeriveErr where
  | badBase64 : DeriveErr
  | badPassphrase : DeriveErr
deriving DecidableEq

/-- `BuildSecretFromPassphrase`, with the random salt and the scrypt KDF
(`scrypt.Key(passphrase, salt, 1<<15, 8, 1, 32)`) taken as parameters:
base64-encode `salt ++ kdf(passphrase, salt)`. -/
def BuildSecretFromPassphrase (kdf : List Nat → List Nat → List Nat)
    (salt passphrase : List Nat) : String :=
  String.mk (encB64 (salt ++ kdf passphrase salt))

/-- `DeriveSecret`: base64-decode the stored secret, split off the `saltSize`-byte salt,
recompute the KDF on the given passphrase with that salt and compare with `bytes.Equal`. -/
def DeriveSecret (kdf : List Nat → List Nat → List Nat)
    (passphrase : List Nat) (secret : String) : Except DeriveErr (List Nat) :=
  match decB64 secret.data with
  | none => .error .badBase64
  | some decodedSecret =>
    let salt := decodedSecret.take saltSize
    let expectedKey := decodedSecret.drop saltSize
    let dk := kdf passphrase salt
    if dk = expectedKey then .ok dk else .error .badPassphrase

/-! # Theorems -/

/-! ## Properties of path cleaning -/

theorem splitChar_ne_nil (sep : Char) (cs : List Char) : splitChar sep cs ≠ [] := by
  cases cs with
  | nil => simp [splitChar]
  | cons c rest =>
    simp only [splitChar]
    rcases h : splitChar sep rest with _ | ⟨a, t⟩
    · simp
    · dsimp only
      split <;> simp

theorem splitChar_sep_not_mem (sep : Char) (cs : List Char) :
    ∀ piece ∈ splitChar sep cs, sep ∉ piece := by
  induction cs with
  | nil => simp [splitChar]
  | cons c rest ih =>
    rcases h : splitChar sep rest with _ | ⟨a, t⟩
    · exact absurd h (splitChar_ne_nil sep rest)
    · rw [h] at ih
      by_cases hc : c = sep
      · simp only [splitChar, h, if_pos hc]
        intro piece hmem
        rcases List.mem_cons.mp hmem with rfl | hmem
        · simp
        · exact ih piece hmem
      · simp only [splitChar, h, if_neg hc]
        intro piece hmem
        rcases List.mem_cons.mp hmem with rfl | hmem
        · intro hin
          rcases List.mem_cons.mp hin with h1 | h1
          · exact hc h1.symm
          · exact ih a (List.mem_cons_self _ _) h1
        · exact ih piece (List.mem_cons_of_mem _ hmem)

theorem splitChar_of_not_mem {sep : Char} {cs : List Char} (h : sep ∉ cs) :
    splitChar sep cs = [cs] := by
  induction cs with
  | nil => simp [splitChar]
  | cons c rest ih =>
    simp only [List.mem_cons, not_or] at h
    simp only [splitChar, ih h.2]
    rw [if_neg (fun hc => h.1 hc.symm)]

theorem splitChar_cons_sep (sep : Char) (t : List Char) :
    splitChar sep (sep :: t) = [] :: splitChar sep t := by
  simp only [splitChar]
  rcases h : splitChar sep t with _ | ⟨a, r⟩
  · exact absurd h (splitChar_ne_nil sep t)
  · simp

theorem splitChar_append_sep {sep : Char} {a : List Char} (t : List Char) (h : sep ∉ a) :
    splitChar sep (a ++ sep :: t) = a :: splitChar sep t := by
  induction a with
  | nil => simp [splitChar_cons_sep sep t]
  | cons c a ih =>
    simp only [List.mem_cons, not_or] at h
    rw [List.cons_append]
    rw [splitChar, ih h.2]
    dsimp only
    rw [if_neg (fun hc => h.1 hc.symm)]

theorem splitChar_joinAtoms {sep : Char} :
    ∀ pieces : List (List Char), pieces ≠ [] → (∀ piece ∈ pieces, sep ∉ piece) →
      splitChar sep (joinAtoms sep pieces) = pieces
  | [], hne, _ => absurd rfl hne
  | [a], _, h => by
    simp only [joinAtoms]
    exact splitChar_of_not_mem (h a (by simp))
  | a :: b :: rest, _, h => by
    have hne : (b :: rest : List (List Char)) ≠ [] := by simp
    simp only [joinAtoms]
    rw [splitChar_append_sep _ (h a (by simp)),
      splitChar_joinAtoms (b :: rest) hne (fun piece hp => h piece (by simp [hp]))]

theorem foldl_step_append (rooted : Bool) (l : List String)
    (h : ∀ a ∈ l, a ≠ "" ∧ a ≠ "." ∧ a ≠ "..") :
    ∀ acc, l.foldl (cleanAtomsStep rooted) acc = acc ++ l := by
  induction l with
  | nil => simp
  | cons a l ih =>
    intro acc
    obtain ⟨h1, h2, h3⟩ := h a (by simp)
    have hstep : cleanAtomsStep rooted acc a = acc ++ [a] := by
      simp [cleanAtomsStep, h1, h2, h3]
    rw [List.foldl_cons, hstep, ih (fun x hx => h x (by simp [hx]))]
    simp

theorem foldl_step_dots (l : List String)
    (hrest : ∀ a ∈ l, a ≠ "" ∧ a ≠ "." ∧ a ≠ "..") :
    ∀ k m, (List.replicate k ".." ++ l).foldl (cleanAtomsStep false)
        (List.replicate m "..") = List.replicate (k + m) ".." ++ l := by
  intro k
  induction k with
  | zero =>
    intro m
    simp [foldl_step_append false l hrest (List.replicate m "..")]
  | succ k ih =>
    intro m
    have hstep : cleanAtomsStep false (List.replicate m "..") ".." =
        List.replicate (m + 1) ".." := by
      cases m with
      | zero => simp [cleanAtomsStep]
      | succ j =>
        have hlast : (List.replicate (j + 1) ".." : List String).getLast? = some ".." := by
          rw [List.replicate_succ']
          exact List.getLast?_concat _
        simp [cleanAtomsStep, hlast, List.replicate_succ']
    rw [List.replicate_succ, List.cons_append, List.foldl_cons, hstep, ih (m + 1)]
    have harith : k + (m + 1) = k + 1 + m := by omega
    rw [harith]

theorem outInv_step {rooted : Bool} {acc : List String} (h : outInv rooted acc)
    {atom : String} (ha : '/' ∉ atom.data) :
    outInv rooted (cleanAtomsStep rooted acc atom) := by
  obtain ⟨helem, k, rest, hout, hrest, hk⟩ := h
  by_cases h1 : atom = "" ∨ atom = "."
  · simpa [cleanAtomsStep, h1] using ⟨helem, k, rest, hout, hrest, hk⟩
  · by_cases h2 : atom = ".."
    · simp only [cleanAtomsStep, if_neg h1, if_pos h2]
      by_cases h3 : acc ≠ [] ∧ acc.getLast? ≠ some ".."
      · rw [if_pos h3]
        refine ⟨fun a hmem => helem a (List.dropLast_subset _ hmem), ?_⟩
        have hrestne : rest ≠ [] := by
          intro hre
          subst hre
          rcases Nat.eq_zero_or_pos k with hz | hpos
          · subst hz
            simp at hout
            exact h3.1 hout
          · apply h3.2
            rw [hout, List.append_nil]
            obtain ⟨j, rfl⟩ := Nat.exists_eq_add_of_lt hpos
            rw [List.replicate_succ']
            simp [List.getLast?_concat]
        refine ⟨k, rest.dropLast, ?_, fun hm => hrest (List.dropLast_subset _ hm), hk⟩
        rw [hout, List.dropLast_append_of_ne_nil _ hrestne]
      · rw [if_neg h3]
        cases rooted with
        | true => exact ⟨helem, k, rest, hout, hrest, hk⟩
        | false =>
          simp only [Bool.false_eq_true, if_false]
          push_neg at h3
          rcases Classical.em (acc = []) with hnil | hnil
          · subst hnil
            exact ⟨by simp [h2], 1, [], by simp [h2], by simp, by simp⟩
          · have hlast := h3 hnil
            have hrestnil : rest = [] := by
              rcases List.eq_nil_or_concat rest with hre | ⟨r0, a0, hre⟩
              · exact hre
              · exfalso
                subst hre
                rw [hout, List.concat_eq_append, ← List.append_assoc,
                  List.getLast?_concat] at hlast
                have ha0 : a0 = ".." := Option.some.inj hlast
                apply hrest
                rw [List.concat_eq_append, ha0]
                simp
            subst hrestnil
            rw [List.append_nil] at hout
            subst hout
            refine ⟨?_, k + 1, [], by simp [List.replicate_succ', h2], by simp, by simp⟩
            intro a hmem
            rcases List.mem_append.mp hmem with hm | hm
            · exact helem a hm
            · simp only [List.mem_singleton] at hm
              subst hm
              rw [h2] at ha
              exact ⟨by simp [h2], by simp [h2], ha⟩
    · push_neg at h1
      simp only [cleanAtomsStep, if_neg (not_or.mpr ⟨h1.1, h1.2⟩), if_neg h2]
      refine ⟨?_, k, rest ++ [atom], by rw [hout, List.append_assoc], ?_, hk⟩
      · intro a hmem
        rcases List.mem_append.mp hmem with hm | hm
        · exact helem a hm
        · simp only [List.mem_singleton] at hm
          subst hm
          exact ⟨h1.1, h1.2, ha⟩
      · intro hm
        rcases List.mem_append.mp hm with hm | hm
        · exact hrest hm
        · simp only [List.mem_singleton] at hm
          exact h2 hm.symm

theorem outInv_foldl {rooted : Bool} (atoms : List String)
    (h : ∀ a ∈ atoms, '/' ∉ a.data) :
    ∀ acc, outInv rooted acc → outInv rooted (atoms.foldl (cleanAtomsStep rooted) acc) := by
  induction atoms with
  | nil => intro acc hacc; simpa using hacc
  | cons a atoms ih =>
    intro acc hacc
    rw [List.foldl_cons]
    exact ih (fun x hx => h x (by simp [hx])) _ (outInv_step hacc (h a (by simp)))

theorem outInv_nil (rooted : Bool) : outInv rooted [] :=
  ⟨by simp, 0, [], by simp, by simp, fun _ => rfl⟩

theorem outInv_refold {rooted : Bool} {out : List String} (h : outInv rooted out) :
    out.foldl (cleanAtomsStep rooted) [] = out := by
  obtain ⟨helem, k, rest, hout, hrest, hk⟩ := h
  have hrest3 : ∀ a ∈ rest, a ≠ "" ∧ a ≠ "." ∧ a ≠ ".." := by
    intro a hm
    have h1 := helem a (by rw [hout]; exact List.mem_append.mpr (Or.inr hm))
    exact ⟨h1.1, h1.2.1, fun hdd => hrest (hdd ▸ hm)⟩
  cases rooted with
  | true =>
    have hk0 := hk rfl
    subst hk0
    rw [List.replicate_zero, List.nil_append] at hout
    rw [hout]
    simpa using foldl_step_append true rest hrest3 []
  | false =>
    rw [hout]
    simpa using foldl_step_dots rest hrest3 k 0

theorem string_mk_ne_empty (c : Char) (cs : List Char) : String.mk (c :: cs) ≠ "" := by
  intro h
  have := congrArg String.data h
  simp at this

theorem map_mk_map_data (out : List String) :
    (out.map String.data).map String.mk = out := by
  rw [List.map_map]
  have : String.mk ∘ String.data = id := funext fun s => rfl
  rw [this, List.map_id]

theorem joinAtoms_head {sep : Char} {a : List Char} (pieces : List (List Char))
    (ha : a ≠ []) : (joinAtoms sep (a :: pieces)).head? = a.head? := by
  cases pieces with
  | nil => rfl
  | cons b rest =>
    rcases a with _ | ⟨c, a⟩
    · exact absurd rfl ha
    · rfl

theorem joinAtoms_ne_nil {sep : Char} {a : List Char} (pieces : List (List Char))
    (ha : a ≠ []) : joinAtoms sep (a :: pieces) ≠ [] := by
  cases pieces with
  | nil => exact ha
  | cons b rest =>
    rcases a with _ | ⟨c, a⟩
    · exact absurd rfl ha
    · simp [joinAtoms]

theorem cleanPath_render {rooted : Bool} {out : List String} (h : outInv rooted out) :
    cleanPath (renderClean rooted out) = renderClean rooted out := by
  obtain ⟨helem, hdots⟩ := h
  have hjoin : out ≠ [] →
      splitChar '/' (joinAtoms '/' (out.map String.data)) = out.map String.data := by
    intro hnil
    apply splitChar_joinAtoms
    · simpa using hnil
    · intro piece hp
      obtain ⟨a, hmem, rfl⟩ := List.mem_map.mp hp
      exact (helem a hmem).2.2
  cases rooted with
  | true =>
    by_cases hnil : out = []
    · subst hnil
      decide
    · have hs : renderClean true out =
          String.mk ('/' :: joinAtoms '/' (out.map String.data)) := rfl
      rw [hs, cleanPath, if_neg (string_mk_ne_empty _ _)]
      have h1 : (cleanParts (String.mk ('/' :: joinAtoms '/' (out.map String.data)))).1 =
          true := by
        simp [cleanParts]
      have h2 : (cleanParts (String.mk ('/' :: joinAtoms '/' (out.map String.data)))).2 =
          out := by
        simp only [cleanParts]
        rw [show (decide ((String.mk ('/' :: joinAtoms '/'
          (out.map String.data))).data.head? = some '/')) = true by simp]
        rw [splitChar_cons_sep, hjoin hnil, List.map_cons, map_mk_map_data,
          List.foldl_cons]
        have hskip : cleanAtomsStep true [] "" = [] := by simp [cleanAtomsStep]
        rw [hskip]
        exact outInv_refold ⟨helem, hdots⟩
      rw [h1, h2]
      exact hs.symm
  | false =>
    by_cases hnil : out = []
    · subst hnil
      decide
    · rcases hout : out with _ | ⟨o₀, orest⟩
      · exact absurd hout hnil
      · subst hout
        have ho₀ := helem o₀ (by simp)
        have hdne : o₀.data ≠ [] := by
          intro hd
          apply ho₀.1
          have : String.mk o₀.data = String.mk [] := by rw [hd]
          simpa using this
        have hs : renderClean false (o₀ :: orest) =
            String.mk (joinAtoms '/' ((o₀ :: orest).map String.data)) := by
          simp [renderClean]
        rw [hs, cleanPath]
        rw [if_neg (by
          rcases hj : joinAtoms '/' ((o₀ :: orest).map String.data) with _ | ⟨c, cs⟩
          · exact absurd hj (joinAtoms_ne_nil _ hdne)
          · exact string_mk_ne_empty c cs)]
        have hhead : (joinAtoms '/' ((o₀ :: orest).map String.data)).head? ≠ some '/' := by
          rw [List.map_cons, joinAtoms_head _ hdne]
          rcases hd : o₀.data with _ | ⟨c, cs⟩
          · exact absurd hd hdne
          · have : c ≠ '/' := by
              intro hc
              exact ho₀.2.2 (by rw [hd, hc]; simp)
            simpa using fun hcc => this hcc
        have hro : (decide ((String.mk (joinAtoms '/'
            ((o₀ :: orest).map String.data))).data.head? = some '/')) = false := by
          simpa using hhead
        have h1 : (cleanParts (String.mk (joinAtoms '/'
            ((o₀ :: orest).map String.data)))).1 = false := by
          simp only [cleanParts]
          exact hro
        have h2 : (cleanParts (String.mk (joinAtoms '/'
            ((o₀ :: orest).map String.data)))).2 = o₀ :: orest := by
          simp only [cleanParts]
          rw [hro]
          rw [hjoin (by simp), map_mk_map_data]
          exact outInv_refold ⟨helem, hdots⟩
        rw [h1, h2]
        exact hs.symm

theorem cleanParts_outInv (p : String) : outInv (cleanParts p).1 (cleanParts p).2 := by
  apply outInv_foldl
  · intro a ha
    obtain ⟨piece, hpiece, rfl⟩ := List.mem_map.mp ha
    simpa using splitChar_sep_not_mem '/' p.data piece hpiece
  · exact outInv_nil _

theorem cleanPath_idem (p : String) : cleanPath (cleanPath p) = cleanPath p := by
  by_cases hp : p = ""
  · subst hp
    decide
  · have h : cleanPath p = renderClean (cleanParts p).1 (cleanParts p).2 := by
      rw [cleanPath, if_neg hp]
    rw [h]
    exact cleanPath_render (cleanParts_outInv p)

/-! ## Order properties of Go string comparison -/

theorem charListLt_nil_right : ∀ y : List Char, charListLt y [] = false
  | [] => rfl
  | _ :: _ => rfl

theorem charListLt_asym : ∀ x y, charListLt x y = true → charListLt y x = false := by
  intro x
  induction x with
  | nil =>
    intro y h
    cases y with
    | nil => simp [charListLt] at h
    | cons b bs => exact charListLt_nil_right _
  | cons a as ih =>
    intro y h
    cases y with
    | nil => simp [charListLt] at h
    | cons b bs =>
      simp only [charListLt] at h ⊢
      by_cases hab : a < b
      · rw [if_neg (asymm hab), if_pos hab]
      · by_cases hba : b < a
        · rw [if_neg hab, if_pos hba] at h
          exact absurd h (by simp)
        · rw [if_neg hab, if_neg hba] at h
          rw [if_neg hba, if_neg hab]
          exact ih bs h

theorem charListLt_conn : ∀ x y, charListLt x y = false → charListLt y x = false → x = y := by
  intro x
  induction x with
  | nil =>
    intro y h1 _
    cases y with
    | nil => rfl
    | cons b bs => simp [charListLt] at h1
  | cons a as ih =>
    intro y h1 h2
    cases y with
    | nil => simp [charListLt] at h2
    | cons b bs =>
      simp only [charListLt] at h1 h2
      rcases lt_trichotomy a b with h | h | h
      · rw [if_pos h] at h1
        exact absurd h1 (by simp)
      · subst h
        rw [if_neg (lt_irrefl a), if_neg (lt_irrefl a)] at h1 h2
        rw [ih bs h1 h2]
      · rw [if_pos h] at h2
        exact absurd h2 (by simp)

theorem charListLt_trans :
    ∀ x y z, charListLt x y = true → charListLt y z = true → charListLt x z = true := by
  intro x
  induction x with
  | nil =>
    intro y z h1 h2
    cases z with
    | nil => rw [charListLt_nil_right] at h2; exact absurd h2 (by simp)
    | cons c cs => rfl
  | cons a as ih =>
    intro y z h1 h2
    cases y with
    | nil => simp [charListLt_nil_right] at h1
    | cons b bs =>
      cases z with
      | nil => rw [charListLt_nil_right] at h2; exact absurd h2 (by simp)
      | cons c cs =>
        simp only [charListLt] at h1 h2 ⊢
        rcases lt_trichotomy a b with hab | hab | hab
        · rcases lt_trichotomy b c with hbc | hbc | hbc
          · rw [if_pos (lt_trans hab hbc)]
          · subst hbc
            rw [if_pos hab]
          · rw [if_neg (asymm hbc), if_pos hbc] at h2
            exact absurd h2 (by simp)
        · subst hab
          rw [if_neg (lt_irrefl a), if_neg (lt_irrefl a)] at h1
          rcases lt_trichotomy a c with hac | hac | hac
          · rw [if_pos hac]
          · subst hac
            rw [if_neg (lt_irrefl a), if_neg (lt_irrefl a)] at h2 ⊢
            exact ih bs cs h1 h2
          · rw [if_neg (asymm hac), if_pos hac] at h2
            exact absurd h2 (by simp)
        · rw [if_neg (asymm hab), if_pos hab] at h1
          exact absurd h1 (by simp)

theorem sLt_asym {a b : String} (h : sLt a b = true) : sLt b a = false :=
  charListLt_asym _ _ h

theorem sLt_conn {a b : String} (h1 : sLt a b = false) (h2 : sLt b a = false) : a = b := by
  have hd : a.data = b.data := charListLt_conn _ _ h1 h2
  calc a = String.mk a.data := rfl
  _ = String.mk b.data := by rw [hd]
  _ = b := rfl

theorem sLt_trans {a b c : String} (h1 : sLt a b = true) (h2 : sLt b c = true) :
    sLt a c = true :=
  charListLt_trans _ _ _ h1 h2

theorem sortStrings_sorted (l : List String) :
    List.Sorted (fun a b : String => sLt b a = false) (sortStrings l) := by
  haveI htot : IsTotal String (fun a b : String => sLt b a = false) := by
    constructor
    intro a b
    by_cases h : sLt b a = false
    · exact Or.inl h
    · refine Or.inr ?_
      exact sLt_asym (show sLt b a = true by
        cases hh : sLt b a with
        | false => exact absurd hh h
        | true => rfl)
  haveI htr : IsTrans String (fun a b : String => sLt b a = false) := by
    constructor
    intro a b c h1 h2
    cases hh : sLt c a with
    | false => rfl
    | true =>
      exfalso
      cases hab : sLt a b with
      | true =>
        have hcb := sLt_trans hh hab
        rw [h2] at hcb
        exact Bool.noConfusion hcb
      | false =>
        have heq : a = b := sLt_conn hab h1
        subst heq
        rw [h2] at hh
        exact Bool.noConfusion hh
  exact List.sorted_insertionSort _ l

theorem sortStrings_perm (l : List String) : (sortStrings l).Perm l :=
  List.perm_insertionSort _ l

/-! ## Claims C8 and C9: `Lookup` and `LookupChildren` -/

theorem lookupLoop_resolve (atoms : List String) : ∀ n : FsNode,
    lookupLoop n atoms =
      (match resolve n atoms with
       | some m => Except.ok m
       | none => Except.error VfsErr.notFound) := by
  induction atoms with
  | nil => intro n; rfl
  | cons a rest ih =>
    intro n
    simp only [lookupLoop, resolve]
    cases n.children.lookup a with
    | none => rfl
    | some c => exact ih c

/-- C8 (amended): `"."` resolves to the root, `"/"` returns the root
without descending, and for any path whose cleaned form is neither `"."`
nor `"/"` the function descends the atom list obtained by splitting the
cleaned form on `/` and dropping its first element — the full atom list
for an absolute cleaned path, but with the first atom silently dropped
for a relative one.  `NotFound` is returned exactly when that descent
meets a missing child. -/
theorem claim_c8_lookup (fs : Filesystem) (p : String) :
    fs.Lookup "." = .ok fs.Root ∧
    fs.Lookup "/" = .ok fs.Root ∧
    (cleanPath p ≠ "." → cleanPath p ≠ "/" →
      fs.Lookup p =
        (match resolve fs.Root ((splitOnSep '/' (cleanPath p)).drop 1) with
         | some n => Except.ok n
         | none => Except.error VfsErr.notFound)) ∧
    (∀ n, fs.Lookup p = .ok n ↔ resolve fs.Root (lookupAtoms p) = some n) ∧
    (fs.Lookup p = .error VfsErr.notFound ↔ resolve fs.Root (lookupAtoms p) = none) := by
  have key : fs.Lookup p =
      (match resolve fs.Root (lookupAtoms p) with
       | some n => Except.ok n
       | none => Except.error VfsErr.notFound) := by
    simp only [Filesystem.Lookup, lookupAtoms]
    by_cases h0 : cleanPath p = "."
    · simp [h0, resolve]
    · by_cases h1 : cleanPath p = "/"
      · simp [h0, h1, resolve]
      · simp [h0, h1, lookupLoop_resolve]
  refine ⟨?_, ?_, ?_, ?_, ?_⟩
  · simp only [Filesystem.Lookup]
    rw [show cleanPath "." = "." from by decide]
    simp
  · simp only [Filesystem.Lookup]
    rw [show cleanPath "/" = "/" from by decide]
    simp
  · intro h0 h1
    rw [key]
    simp [lookupAtoms, h0, h1]
  · intro n
    rw [key]
    cases hres : resolve fs.Root (lookupAtoms p) <;> simp
  · rw [key]
    cases hres : resolve fs.Root (lookupAtoms p) <;> simp

/-- C8 counterexample: the cleaned form of `"a/b"` is `"a/b"`, whose
first atom `"a"` is missing from the tree, yet `Lookup` succeeds and
returns the child `"b"` of the root, because the descent drops the
first atom of a relative cleaned path. -/
theorem claim_c8_counterexample :
    cleanPath "a/b" = "a/b" ∧
    exFs8.Root.children.lookup "a" = none ∧
    exFs8.Lookup "a/b" = .ok nodeB8 :=
  ⟨by decide, rfl, rfl⟩

/-- Witness for C8 at concrete inputs. -/
theorem claim_c8_lookup_witness :
    exFs8.Lookup "/b" = .ok nodeB8 ∧
    exFs8.Lookup "/a" = Except.error VfsErr.notFound := by
  constructor
  · have h := (claim_c8_lookup exFs8 "/b").2.2.1 (by decide) (by decide)
    rw [h]
    rfl
  · have h := (claim_c8_lookup exFs8 "/a").2.2.1 (by decide) (by decide)
    rw [h]
    rfl

theorem lookup_cleaned (fs : Filesystem) (p : String) :
    fs.Lookup (if cleanPath p = "." then "/" else cleanPath p) = fs.Lookup p := by
  by_cases h0 : cleanPath p = "."
  · rw [if_pos h0]
    simp only [Filesystem.Lookup]
    rw [show cleanPath "/" = "/" from by decide, h0]
    simp
  · rw [if_neg h0]
    simp only [Filesystem.Lookup]
    rw [cleanPath_idem p]

/-- C9: `LookupChildren` returns the sorted child atom names when the
resolved node record is a directory, `os.ErrInvalid` when the node
resolves but its inode record is not a directory, and `os.ErrNotExist`
when the path does not resolve; the returned list is sorted ascending
for Go string comparison and is a permutation of the child names. -/
theorem claim_c9_lookupChildren (fs : Filesystem) (p : String) :
    (∀ n, fs.Lookup p = .ok n →
      (((fs.Inodes.lookup n.inode).getD default).mode = .directory →
        fs.LookupChildren p = .ok (sortStrings (n.children.map Prod.fst))) ∧
      (((fs.Inodes.lookup n.inode).getD default).mode ≠ .directory →
        fs.LookupChildren p = .error VfsErr.invalid)) ∧
    (fs.Lookup p = .error VfsErr.notFound → fs.LookupChildren p = .error VfsErr.notFound) ∧
    (∀ l, List.Sorted (fun a b : String => sLt b a = false) (sortStrings l) ∧
      (sortStrings l).Perm l) := by
  refine ⟨?_, ?_, fun l => ⟨sortStrings_sorted l, sortStrings_perm l⟩⟩
  · intro n h
    constructor
    · intro hd
      simp only [Filesystem.LookupChildren]
      rw [lookup_cleaned, h]
      simp [hd]
    · intro hd
      simp only [Filesystem.LookupChildren]
      rw [lookup_cleaned, h]
      simp [hd]
  · intro h
    simp only [Filesystem.LookupChildren]
    rw [lookup_cleaned, h]

/-- Witness for C9 at concrete inputs: the directory root lists its
children in sorted order, a regular child is rejected with the
not-a-directory error, and a missing path reports not-found. -/
theorem claim_c9_lookupChildren_witness :
    exFs9.LookupChildren "/" = .ok ["a", "b"] ∧
    exFs9.LookupChildren "/a" = .error VfsErr.invalid ∧
    exFs9.LookupChildren "/c" = .error VfsErr.notFound := by
  refine ⟨?_, ?_, ?_⟩
  · have h := ((claim_c9_lookupChildren exFs9 "/").1 exFs9.Root (by rfl)).1 (by rfl)
    rw [h]
    rfl
  · have h := ((claim_c9_lookupChildren exFs9 "/a").1 (.mk "1,7" []) (by rfl)).2 (by decide)
    rw [h]
  · have h := (claim_c9_lookupChildren exFs9 "/c").2.1 (by rfl)
    rw [h]

/-! ## Claim C7: build counters vs reachable node counts -/

theorem addInode_counters (fs : Filesystem) (fi : FileInfo) :
    (fs.addInode fi).2.nFiles = fs.nFiles ∧
    (fs.addInode fi).2.nDirectories = fs.nDirectories := by
  simp only [Filesystem.addInode]
  cases fs.Inodes.lookup (inodeKeyOf fi) with
  | none => exact ⟨rfl, rfl⟩
  | some v => exact ⟨rfl, rfl⟩

theorem addPathname_counters (fs : Filesystem) (p : String) :
    (fs.addPathname p).2.nFiles = fs.nFiles ∧
    (fs.addPathname p).2.nDirectories = fs.nDirectories := by
  simp only [Filesystem.addPathname]
  cases fs.Pathnames.lookup p with
  | none => exact ⟨rfl, rfl⟩
  | some v => exact ⟨rfl, rfl⟩

theorem buildTree_counters (fs : Filesystem) (p : String) (fi : FileInfo) :
    (fs.buildTree p fi).nFiles =
      fs.nFiles + (if fi.mode = FileMode.regular then 1 else 0) ∧
    (fs.buildTree p fi).nDirectories =
      fs.nDirectories + (if fi.mode = FileMode.directory then 1 else 0) := by
  simp only [Filesystem.buildTree]
  rw [(addPathname_counters _ _).1, (addPathname_counters _ _).2,
    (addInode_counters _ _).1, (addInode_counters _ _).2]
  exact ⟨rfl, rfl⟩

theorem applyBuilds_counters (ops : List (String × FileInfo)) : ∀ fs : Filesystem,
    (applyBuilds fs ops).nFiles =
      fs.nFiles + ops.countP (fun op => op.2.mode = FileMode.regular) ∧
    (applyBuilds fs ops).nDirectories =
      fs.nDirectories + ops.countP (fun op => op.2.mode = FileMode.directory) := by
  induction ops with
  | nil => intro fs; simp [applyBuilds]
  | cons op rest ih =>
    intro fs
    have hstep := buildTree_counters fs op.1 op.2
    have hrest := ih (fs.buildTree op.1 op.2)
    simp only [applyBuilds, List.foldl_cons] at hrest ⊢
    rw [hrest.1, hrest.2, hstep.1, hstep.2, List.countP_cons, List.countP_cons]
    constructor
    · by_cases h : op.2.mode = FileMode.regular
      all_goals simp [h]
      all_goals omega
    · by_cases h : op.2.mode = FileMode.directory
      all_goals simp [h]
      all_goals omega

/-- C7 (amended): after a sequence of `buildTree` operations, the
`files` counter equals the number of build operations whose argument is
a regular file and the `directories` counter equals the number whose
argument is a directory — the counters count build invocations, not
reachable nodes, so they exceed the node counts when a path is built
more than once. -/
theorem claim_c7_amended (ops : List (String × FileInfo)) :
    (applyBuilds newFilesystem ops).nFiles =
      ops.countP (fun op => op.2.mode = FileMode.regular) ∧
    (applyBuilds newFilesystem ops).nDirectories =
      ops.countP (fun op => op.2.mode = FileMode.directory) := by
  have h := applyBuilds_counters ops newFilesystem
  simpa [newFilesystem] using h

/-- C7 counterexample: building `"/a"` twice with the same regular
file info leaves `nFiles = 2` although only one regular-file node is
reachable from the root, refuting the claimed equality under repeated
builds. -/
theorem claim_c7_counterexample :
    exFs7.nFiles = 2 ∧
    countNode (nodeHasMode exFs7.Inodes .regular) exFs7.Root = 1 ∧
    exFs7.nDirectories = 1 ∧
    countNode (nodeHasMode exFs7.Inodes .directory) exFs7.Root = 1 := by
  have hRoot : exFs7.Root = FsNode.mk "0,0" [("a", FsNode.mk "1,1" [])] := rfl
  have hL0 : exFs7.Inodes.lookup "0,0" = some fiDir7 := rfl
  have hL1 : exFs7.Inodes.lookup "1,1" = some fiReg7 := rfl
  refine ⟨rfl, ?_, rfl, ?_⟩
  · rw [hRoot]
    simp [countNode, countKids, nodeHasMode, FsNode.inode, hL0, hL1, fiDir7, fiReg7]
  · rw [hRoot]
    simp [countNode, countKids, nodeHasMode, FsNode.inode, hL0, hL1, fiDir7, fiReg7]

/-! ## Claim C6: `reindex` -/

/-- C6 (code bug): on the concrete filesystem with a directory root of
size 10 and a regular child of size 5, the build-time `totalSize` is 15
and the sum of the inode record sizes over every reachable node is 15,
but after serialization and `reindex` the rebuilt `totalSize` is only
10: the `_reindex` walk records non-directory children in `stat_info`
without adding their sizes, so `total_size` ends up summing only the
nodes the walk recurses into (the root and reachable directories). -/
theorem claim_c6_reindex_bug :
    exFs6.totalSize = 15 ∧
    sumNode (inodeSizeOf exFs6.Inodes) exFs6.Root = 15 ∧
    (deserialized exFs6).totalSize = 10 ∧
    (deserialized exFs6).statInfo = [("/", fiDir7), ("/a", fiReg7)] ∧
    (deserialized exFs6).pathnamesInverse = [(1, "/a"), (0, "/")] := by
  have hRoot : exFs6.Root = FsNode.mk "0,0" [("a", FsNode.mk "1,1" [])] := rfl
  have hL0 : exFs6.Inodes.lookup "0,0" = some fiDir7 := rfl
  have hL1 : exFs6.Inodes.lookup "1,1" = some fiReg7 := rfl
  have hdz : deserialized exFs6 = exFs6wire.reindex := rfl
  have hwR : exFs6wire.Root = FsNode.mk "0,0" [("a", FsNode.mk "1,1" [])] := rfl
  have hwI : exFs6wire.Inodes.lookup "0,0" = some fiDir7 := rfl
  have hwI1 : exFs6wire.Inodes.lookup "1,1" = some fiReg7 := rfl
  have hwT : exFs6wire.totalSize = 0 := rfl
  have happ : ("/" : String) ++ "/" ++ "a" = "//a" := rfl
  have hclean : cleanPath "//a" = "/a" := by decide
  have hwalk : reindexNode exFs6wire.Inodes "/" exFs6wire.Root [] exFs6wire.totalSize =
      ([("/", fiDir7), ("/a", fiReg7)], 10) := by
    rw [hwR, hwT]
    simp [reindexNode, reindexKids, FsNode.inode, hwI, hwI1, fiDir7, fiReg7, setAssoc,
      happ, hclean]
  refine ⟨rfl, ?_, ?_, ?_, ?_⟩
  · rw [hRoot]
    simp [sumNode, sumKids, inodeSizeOf, FsNode.inode, hL0, hL1, fiDir7, fiReg7]
  · rw [hdz]
    simp only [Filesystem.reindex]
    rw [hwalk]
  · rw [hdz]
    simp only [Filesystem.reindex]
    rw [hwalk]
  · rw [hdz]
    simp only [Filesystem.reindex]
    rfl

/-! ## Claim C4: `ParseSortKeys` -/

theorem parseSortKeysLoop_ok_val : ∀ ks seen acc l,
    parseSortKeysLoop ks seen acc = .ok l → l = acc ++ ks.map trimSpace := by
  intro ks
  induction ks with
  | nil =>
    intro seen acc l h
    simp only [parseSortKeysLoop] at h
    cases h
    simp
  | cons k rest ih =>
    intro seen acc l h
    simp only [parseSortKeysLoop] at h
    by_cases h1 : stripDash (trimSpace k) ∈ seen
    · rw [if_pos h1] at h
      exact Except.noConfusion h
    · rw [if_neg h1] at h
      by_cases h2 : stripDash (trimSpace k) ∉ headerFieldNames
      · rw [if_pos h2] at h
        exact Except.noConfusion h
      · rw [if_neg h2] at h
        rw [ih _ _ _ h]
        simp

theorem parseSortKeysLoop_ok_iff : ∀ ks seen acc,
    (∃ l, parseSortKeysLoop ks seen acc = .ok l) ↔ keysOK ks seen := by
  intro ks
  induction ks with
  | nil =>
    intro seen acc
    simp [parseSortKeysLoop, keysOK]
  | cons k rest ih =>
    intro seen acc
    simp only [parseSortKeysLoop, keysOK, baseOf]
    by_cases h1 : stripDash (trimSpace k) ∈ seen
    · rw [if_pos h1]
      simp [h1]
    · rw [if_neg h1]
      by_cases h2 : stripDash (trimSpace k) ∉ headerFieldNames
      · rw [if_pos h2]
        simp [h1, h2]
      · rw [if_neg h2]
        push_neg at h2
        rw [ih]
        simp [h1, h2]

theorem parseSortKeysLoop_inv_err : ∀ ks seen acc k,
    parseSortKeysLoop ks seen acc = .error (.invalidSortKey k) →
      stripDash k ∉ headerFieldNames := by
  intro ks
  induction ks with
  | nil =>
    intro seen acc k h
    exact Except.noConfusion h
  | cons k0 rest ih =>
    intro seen acc k h
    simp only [parseSortKeysLoop] at h
    by_cases h1 : stripDash (trimSpace k0) ∈ seen
    · rw [if_pos h1] at h
      cases h
    · rw [if_neg h1] at h
      by_cases h2 : stripDash (trimSpace k0) ∉ headerFieldNames
      · rw [if_pos h2] at h
        cases h
        exact h2
      · rw [if_neg h2] at h
        exact ih _ _ _ h

theorem parseSortKeysLoop_dup_err : ∀ ks seen acc k,
    parseSortKeysLoop ks seen acc = .error (.duplicateKey k) →
      ¬ ((ks.map baseOf).Nodup ∧ ∀ b ∈ ks.map baseOf, b ∉ seen) := by
  intro ks
  induction ks with
  | nil =>
    intro seen acc k h
    exact Except.noConfusion h
  | cons k0 rest ih =>
    intro seen acc k h
    simp only [parseSortKeysLoop] at h
    by_cases h1 : stripDash (trimSpace k0) ∈ seen
    · rw [if_pos h1] at h
      rintro ⟨_, hdisj⟩
      exact hdisj (baseOf k0) (by simp) h1
    · rw [if_neg h1] at h
      by_cases h2 : stripDash (trimSpace k0) ∉ headerFieldNames
      · rw [if_pos h2] at h
        cases h
      · rw [if_neg h2] at h
        have hrec := ih _ _ _ h
        rintro ⟨hnd, hdisj⟩
        apply hrec
        rw [List.map_cons, List.nodup_cons] at hnd
        refine ⟨hnd.2, ?_⟩
        intro b hb hmem
        rcases List.mem_cons.mp hmem with hm | hm
        · have hm2 : b = baseOf k0 := hm
          exact hnd.1 (hm2 ▸ hb)
        · exact hdisj b (List.mem_cons_of_mem _ hb) hm

theorem keysOK_iff : ∀ ks seen, keysOK ks seen ↔
    ((ks.map baseOf).Nodup ∧ (∀ k ∈ ks, baseOf k ∈ headerFieldNames) ∧
      ∀ k ∈ ks, baseOf k ∉ seen) := by
  intro ks
  induction ks with
  | nil => intro seen; simp [keysOK]
  | cons k rest ih =>
    intro seen
    rw [show keysOK (k :: rest) seen ↔
      (baseOf k ∉ seen ∧ baseOf k ∈ headerFieldNames ∧ keysOK rest (baseOf k :: seen))
      from Iff.rfl]
    rw [ih]
    constructor
    · rintro ⟨hns, hf, hnd, hfs, hdisj⟩
      refine ⟨?_, ?_, ?_⟩
      · rw [List.map_cons, List.nodup_cons]
        refine ⟨?_, hnd⟩
        intro hmem
        obtain ⟨k2, hk2, hbeq⟩ := List.mem_map.mp hmem
        exact hdisj k2 hk2 (by rw [hbeq]; exact List.mem_cons_self _ _)
      · intro k2 hk2
        rcases List.mem_cons.mp hk2 with rfl | hk2
        · exact hf
        · exact hfs k2 hk2
      · intro k2 hk2
        rcases List.mem_cons.mp hk2 with rfl | hk2
        · exact hns
        · exact fun hmem => hdisj k2 hk2 (List.mem_cons_of_mem _ hmem)
    · rintro ⟨hnd, hfs, hdisj⟩
      rw [List.map_cons, List.nodup_cons] at hnd
      refine ⟨hdisj k (List.mem_cons_self _ _), hfs k (List.mem_cons_self _ _),
        hnd.2, ?_, ?_⟩
      · intro k2 hk2
        exact hfs k2 (List.mem_cons_of_mem _ hk2)
      · intro k2 hk2 hmem
        rcases List.mem_cons.mp hmem with hm | hm
        · exact hnd.1 (hm ▸ List.mem_map_of_mem baseOf hk2)
        · exact hdisj k2 (List.mem_cons_of_mem _ hk2) hm

/-- C4 (amended): for a non-empty specification, `ParseSortKeys`
succeeds — returning the trimmed keys in input order — exactly when the
base names (after stripping one leading `-`) are pairwise distinct and
each is a field name of the `Header` struct (`SnapshotID`, `Version`,
`CreationTime`, `CreationDuration`, `Identity`, `Category`, `Tags`,
`Context`, `Importer`, `Root`, `Index`, `Metadata`, `Statistics`,
`Errors`, `Summary` — not just the four keys the sort understands);
an `InvalidSortKey` error names a key whose base is outside that set,
and a `DuplicateKey` error implies the base names are not pairwise
distinct. -/
theorem claim_c4_parseSortKeys_amended (s : String) (hs : s ≠ "") :
    (parseSortKeys s = .ok ((splitOnSep ',' s).map trimSpace) ↔
      (((splitOnSep ',' s).map baseOf).Nodup ∧
        ∀ k ∈ splitOnSep ',' s, baseOf k ∈ headerFieldNames)) ∧
    (∀ l, parseSortKeys s = .ok l → l = (splitOnSep ',' s).map trimSpace) ∧
    (∀ k, parseSortKeys s = .error (.invalidSortKey k) →
      stripDash k ∉ headerFieldNames) ∧
    (∀ k, parseSortKeys s = .error (.duplicateKey k) →
      ¬ ((splitOnSep ',' s).map baseOf).Nodup) := by
  have hdef : parseSortKeys s = parseSortKeysLoop (splitOnSep ',' s) [] [] := by
    rw [parseSortKeys, if_neg hs]
  refine ⟨?_, ?_, ?_, ?_⟩
  · rw [hdef]
    constructor
    · intro h
      have hok : keysOK (splitOnSep ',' s) [] :=
        (parseSortKeysLoop_ok_iff _ _ _).mp ⟨_, h⟩
      have := (keysOK_iff _ _).mp hok
      exact ⟨this.1, this.2.1⟩
    · rintro ⟨hnd, hfs⟩
      have hok : keysOK (splitOnSep ',' s) [] :=
        (keysOK_iff _ _).mpr ⟨hnd, hfs, by simp⟩
      obtain ⟨l, hl⟩ := (parseSortKeysLoop_ok_iff (splitOnSep ',' s) [] []).mpr hok
      have := parseSortKeysLoop_ok_val _ _ _ _ hl
      rw [hl, this]
      simp
  · intro l h
    rw [hdef] at h
    have := parseSortKeysLoop_ok_val _ _ _ _ h
    simpa using this
  · intro k h
    rw [hdef] at h
    exact parseSortKeysLoop_inv_err _ _ _ _ h
  · intro k h
    rw [hdef] at h
    have := parseSortKeysLoop_dup_err _ _ _ _ h
    intro hnd
    exact this ⟨hnd, by simp⟩

/-- C4 counterexample: `"Category"` is accepted by `ParseSortKeys`
(it is a `Header` field found by `reflect.FieldByName`) although it is
outside the claimed recognized set `{CreationTime, SnapshotID, Version,
Tags}`, for which the claim demands an `InvalidSortKey` error. -/
theorem claim_c4_counterexample :
    parseSortKeys "Category" = .ok ["Category"] ∧
    "Category" ∉ (["CreationTime", "SnapshotID", "Version", "Tags"] : List String) := by
  constructor
  · rfl
  · decide

/-- Witness for C4 at a concrete input. -/
theorem claim_c4_witness :
    parseSortKeys "Tags,-Version" = .ok ["Tags", "-Version"] := by
  have h := ((claim_c4_parseSortKeys_amended "Tags,-Version" (by decide)).1).mpr
    (by decide)
  rw [show ((splitOnSep ',' "Tags,-Version").map trimSpace) = ["Tags", "-Version"]
    from by decide] at h
  exact h

/-! ## Claim C5: `SortHeaders` -/

theorem sLt_flip_ne {x y : String} (h : x ≠ y) : sLt y x = !(sLt x y) := by
  cases hxy : sLt x y with
  | true => simp [sLt_asym hxy]
  | false =>
    cases hyx : sLt y x with
    | true => simp
    | false => exact absurd (sLt_conn hxy hyx) h

theorem baseGood_natCmp : BaseCmpGood natCmp := by
  refine ⟨?_, ?_, ?_, ?_⟩
  · intro x; simp [natCmp]
  · intro x y t h
    simp only [natCmp] at h ⊢
    by_cases hxy : x = y
    · simp [hxy] at h
    · rw [if_neg hxy] at h
      rw [if_neg (Ne.symm hxy)]
      injection h with ht
      subst ht
      congr 1
      rcases Nat.lt_trichotomy x y with h3 | h3 | h3
      · simp [h3, Nat.lt_asymm h3]
      · exact absurd h3 hxy
      · simp [h3, Nat.lt_asymm h3]
  · intro x y h
    simp only [natCmp] at h
    by_cases hxy : x = y
    · exact hxy
    · rw [if_neg hxy] at h
      exact absurd h (by simp)
  · intro x y z h1 h2
    simp only [natCmp] at h1 h2 ⊢
    by_cases hxy : x = y
    · rw [if_pos hxy] at h1
      exact absurd h1 (by simp)
    · rw [if_neg hxy] at h1
      by_cases hyz : y = z
      · rw [if_pos hyz] at h2
        exact absurd h2 (by simp)
      · rw [if_neg hyz] at h2
        injection h1 with h1t
        injection h2 with h2t
        have hx : x < y := of_decide_eq_true h1t
        have hy : y < z := of_decide_eq_true h2t
        rw [if_neg (show x ≠ z from by omega)]
        simp [show x < z from by omega]

theorem baseGood_strCmp : BaseCmpGood strCmp := by
  refine ⟨?_, ?_, ?_, ?_⟩
  · intro x; simp [strCmp]
  · intro x y t h
    simp only [strCmp] at h ⊢
    by_cases hxy : x = y
    · simp [hxy] at h
    · rw [if_neg hxy] at h
      injection h with ht
      subst ht
      rw [if_neg (Ne.symm hxy), sLt_flip_ne hxy]
  · intro x y h
    simp only [strCmp] at h
    by_cases hxy : x = y
    · exact hxy
    · rw [if_neg hxy] at h
      exact absurd h (by simp)
  · intro x y z h1 h2
    simp only [strCmp] at h1 h2 ⊢
    by_cases hxy : x = y
    · rw [if_pos hxy] at h1
      exact absurd h1 (by simp)
    · rw [if_neg hxy] at h1
      by_cases hyz : y = z
      · rw [if_pos hyz] at h2
        exact absurd h2 (by simp)
      · rw [if_neg hyz] at h2
        injection h1 with h1t
        injection h2 with h2t
        have hxz : sLt x z = true := sLt_trans h1t h2t
        have hne : x ≠ z := by
          intro he
          subst he
          rw [sLt_asym h1t] at h2t
          exact Bool.noConfusion h2t
        rw [if_neg hne, hxz]

theorem bytesCmp_refl : ∀ x, bytesCmp x x = none
  | [] => rfl
  | a :: as => by simp [bytesCmp, bytesCmp_refl as]

theorem bytesCmp_asym : ∀ x y t, bytesCmp x y = some t → bytesCmp y x = some (!t) := by
  intro x
  induction x with
  | nil =>
    intro y t h
    cases y <;> simp [bytesCmp] at h
  | cons a as ih =>
    intro y t h
    cases y with
    | nil => simp [bytesCmp] at h
    | cons b bs =>
      simp only [bytesCmp] at h ⊢
      by_cases hab : a = b
      · rw [if_pos hab] at h
        rw [if_pos hab.symm]
        exact ih bs t h
      · rw [if_neg hab] at h
        rw [if_neg (Ne.symm hab)]
        injection h with ht
        subst ht
        congr 1
        rcases Nat.lt_trichotomy a b with h3 | h3 | h3
        · simp [h3, Nat.lt_asymm h3]
        · exact absurd h3 hab
        · simp [h3, Nat.lt_asymm h3]

theorem bytesCmp_noneEq : ∀ x y, x.length = y.length → bytesCmp x y = none → x = y := by
  intro x
  induction x with
  | nil =>
    intro y hl _
    cases y with
    | nil => rfl
    | cons b bs => simp at hl
  | cons a as ih =>
    intro y hl h
    cases y with
    | nil => simp at hl
    | cons b bs =>
      simp only [bytesCmp] at h
      by_cases hab : a = b
      · rw [if_pos hab] at h
        rw [hab, ih bs (by simpa using hl) h]
      · rw [if_neg hab] at h
        exact absurd h (by simp)

theorem bytesCmp_trans : ∀ x y z, bytesCmp x y = some true → bytesCmp y z = some true →
    bytesCmp x z = some true := by
  intro x
  induction x with
  | nil =>
    intro y z h1 _
    cases y <;> simp [bytesCmp] at h1
  | cons a as ih =>
    intro y z h1 h2
    cases y with
    | nil => simp [bytesCmp] at h1
    | cons b bs =>
      cases z with
      | nil => simp [bytesCmp] at h2
      | cons c cs =>
        simp only [bytesCmp] at h1 h2 ⊢
        by_cases hab : a = b
        · rw [if_pos hab] at h1
          by_cases hbc : b = c
          · rw [if_pos hbc] at h2
            rw [if_pos (hab.trans hbc)]
            exact ih bs cs h1 h2
          · rw [if_neg hbc] at h2
            injection h2 with h2t
            have hbcn : b < c := of_decide_eq_true h2t
            rw [if_neg (show a ≠ c from by omega)]
            simp [show a < c from by omega]
        · rw [if_neg hab] at h1
          injection h1 with h1t
          have habn : a < b := of_decide_eq_true h1t
          by_cases hbc : b = c
          · rw [if_neg (show a ≠ c from by omega)]
            simp [show a < c from by omega]
          · rw [if_neg hbc] at h2
            injection h2 with h2t
            have hbcn : b < c := of_decide_eq_true h2t
            rw [if_neg (show a ≠ c from by omega)]
            simp [show a < c from by omega]

theorem tagsCmp_refl : ∀ x, tagsCmp x x = none := by
  intro x
  induction x with
  | nil => simp [tagsCmp]
  | cons a as ih => simp [tagsCmp, ih]

theorem tagsCmp_asym : ∀ x y t, tagsCmp x y = some t → tagsCmp y x = some (!t) := by
  intro x
  induction x with
  | nil =>
    intro y t h
    cases y with
    | nil => simp [tagsCmp] at h
    | cons b bs =>
      simp only [tagsCmp] at h ⊢
      rw [if_neg (by simp)] at h
      injection h with ht
      subst ht
      rw [if_neg (by simp)]
      congr 1
      simp
  | cons a as ih =>
    intro y t h
    cases y with
    | nil =>
      simp only [tagsCmp] at h ⊢
      rw [if_neg (by simp)] at h
      injection h with ht
      subst ht
      rw [if_neg (by simp)]
      congr 1
      simp
    | cons b bs =>
      simp only [tagsCmp] at h ⊢
      by_cases hab : a = b
      · rw [if_pos hab] at h
        rw [if_pos hab.symm]
        exact ih bs t h
      · rw [if_neg hab] at h
        rw [if_neg (Ne.symm hab)]
        injection h with ht
        subst ht
        rw [sLt_flip_ne hab]

theorem tagsCmp_noneEq : ∀ x y, tagsCmp x y = none → x = y := by
  intro x
  induction x with
  | nil =>
    intro y h
    cases y with
    | nil => rfl
    | cons b bs => simp [tagsCmp] at h
  | cons a as ih =>
    intro y h
    cases y with
    | nil => simp [tagsCmp] at h
    | cons b bs =>
      simp only [tagsCmp] at h
      by_cases hab : a = b
      · rw [if_pos hab] at h
        rw [hab, ih bs h]
      · rw [if_neg hab] at h
        exact absurd h (by simp)

theorem tagsCmp_trans : ∀ x y z, tagsCmp x y = some true → tagsCmp y z = some true →
    tagsCmp x z = some true := by
  intro x
  induction x with
  | nil =>
    intro y z h1 h2
    cases y with
    | nil => simp [tagsCmp] at h1
    | cons b bs =>
      cases z with
      | nil =>
        simp only [tagsCmp] at h2
        rw [if_neg (by simp)] at h2
        injection h2 with h2t
        simp at h2t
      | cons c cs =>
        simp only [tagsCmp]
        rw [if_neg (by simp)]
        simp
  | cons a as ih =>
    intro y z h1 h2
    cases y with
    | nil =>
      simp only [tagsCmp] at h1
      rw [if_neg (by simp)] at h1
      injection h1 with h1t
      simp at h1t
    | cons b bs =>
      cases z with
      | nil =>
        simp only [tagsCmp] at h2
        rw [if_neg (by simp)] at h2
        injection h2 with h2t
        simp at h2t
      | cons c cs =>
        simp only [tagsCmp] at h1 h2 ⊢
        by_cases hab : a = b
        · rw [if_pos hab] at h1
          by_cases hbc : b = c
          · rw [if_pos hbc] at h2
            rw [if_pos (hab.trans hbc)]
            exact ih bs cs h1 h2
          · rw [if_neg hbc] at h2
            injection h2 with h2t
            have hne : a ≠ c := by rw [hab]; exact hbc
            rw [if_neg hne, hab, h2t]
        · rw [if_neg hab] at h1
          injection h1 with h1t
          by_cases hbc : b = c
          · have hne : a ≠ c := by rw [← hbc]; exact hab
            rw [if_neg hne, ← hbc, h1t]
          · rw [if_neg hbc] at h2
            injection h2 with h2t
            have hxz : sLt a c = true := sLt_trans h1t h2t
            have hne : a ≠ c := by
              intro he
              subst he
              rw [sLt_asym h1t] at h2t
              exact Bool.noConfusion h2t
            rw [if_neg hne, hxz]

theorem baseGood_bytesCk : BaseCmpGood (fun x y : Checksum => bytesCmp x.val y.val) := by
  refine ⟨?_, ?_, ?_, ?_⟩
  · intro x; exact bytesCmp_refl _
  · intro x y t h; exact bytesCmp_asym _ _ _ h
  · intro x y h
    exact Subtype.ext (bytesCmp_noneEq x.val y.val (by rw [x.property, y.property]) h)
  · intro x y z h1 h2; exact bytesCmp_trans _ _ _ h1 h2

theorem baseGood_tags : BaseCmpGood tagsCmp :=
  ⟨tagsCmp_refl, tagsCmp_asym, tagsCmp_noneEq, tagsCmp_trans⟩

theorem baseGood_flip {β : Type} {cmp : β → β → Option Bool} (hb : BaseCmpGood cmp) :
    BaseCmpGood (fun x y => cmp y x) := by
  obtain ⟨hr, ha, hn, ht⟩ := hb
  exact ⟨fun x => hr x, fun x y t h => ha _ _ _ h, fun x y h => (hn _ _ h).symm,
    fun x y z h1 h2 => ht _ _ _ h2 h1⟩

theorem projCmpGood {β : Type} (proj : Header → β) {bcmp : β → β → Option Bool}
    (hb : BaseCmpGood bcmp) : CmpGood (fun a b => bcmp (proj a) (proj b)) := by
  obtain ⟨hr, ha, hn, ht⟩ := hb
  refine ⟨fun a => hr _, fun a b t h => ha _ _ _ h, ?_, fun a b c h1 h2 => ht _ _ _ h1 h2⟩
  intro a b h c
  dsimp only at h ⊢
  rw [hn _ _ h]
  exact ⟨rfl, rfl⟩

theorem keyCmp_good_or_false (key : String) :
    CmpGood (keyCmp key) ∨ ∀ a b, keyCmp key a b = some false := by
  by_cases h1 : key = "CreationTime"
  · left
    have he : keyCmp key = fun a b => natCmp a.creationTime b.creationTime := by
      funext a b; simp [keyCmp, h1]
    rw [he]
    exact projCmpGood (fun h => h.creationTime) baseGood_natCmp
  · by_cases h2 : key = "-CreationTime"
    · left
      have he : keyCmp key = fun a b => natCmp b.creationTime a.creationTime := by
        funext a b; simp [keyCmp, h1, h2]
      rw [he]
      exact projCmpGood (fun h => h.creationTime) (baseGood_flip baseGood_natCmp)
    · by_cases h3 : key = "SnapshotID"
      · left
        have he : keyCmp key = fun a b => bytesCmp a.snapshotID.val b.snapshotID.val := by
          funext a b; simp [keyCmp, h1, h2, h3]
        rw [he]
        exact projCmpGood (fun h => h.snapshotID) baseGood_bytesCk
      · by_cases h4 : key = "-SnapshotID"
        · left
          have he : keyCmp key = fun a b => bytesCmp b.snapshotID.val a.snapshotID.val := by
            funext a b; simp [keyCmp, h1, h2, h3, h4]
          rw [he]
          exact projCmpGood (fun h => h.snapshotID) (baseGood_flip baseGood_bytesCk)
        · by_cases h5 : key = "Version"
          · left
            have he : keyCmp key = fun a b => strCmp a.version b.version := by
              funext a b; simp [keyCmp, h1, h2, h3, h4, h5]
            rw [he]
            exact projCmpGood (fun h => h.version) baseGood_strCmp
          · by_cases h6 : key = "-Version"
            · left
              have he : keyCmp key = fun a b => strCmp b.version a.version := by
                funext a b; simp [keyCmp, h1, h2, h3, h4, h5, h6]
              rw [he]
              exact projCmpGood (fun h => h.version) (baseGood_flip baseGood_strCmp)
            · by_cases h7 : key = "Tags"
              · left
                have he : keyCmp key = fun a b => tagsCmp a.tags b.tags := by
                  funext a b; simp [keyCmp, h1, h2, h3, h4, h5, h6, h7]
                rw [he]
                exact projCmpGood (fun h => h.tags) baseGood_tags
              · by_cases h8 : key = "-Tags"
                · left
                  have he : keyCmp key = fun a b => tagsCmp b.tags a.tags := by
                    funext a b; simp [keyCmp, h1, h2, h3, h4, h5, h6, h7, h8]
                  rw [he]
                  exact projCmpGood (fun h => h.tags) (baseGood_flip baseGood_tags)
                · right
                  intro a b
                  simp [keyCmp, h1, h2, h3, h4, h5, h6, h7, h8]

theorem optStep_asym_step {cmp : Header → Header → Option Bool} (hc : CmpGood cmp)
    {rest : Header → Header → Bool}
    (ih : ∀ a b, rest a b = true → rest b a = false) :
    ∀ a b, optStep (cmp a b) (rest a b) = true → optStep (cmp b a) (rest b a) = false := by
  intro a b h
  obtain ⟨hr, ha, hcong, ht⟩ := hc
  cases hab : cmp a b with
  | some t =>
    rw [hab] at h
    simp only [optStep] at h
    subst h
    rw [ha _ _ _ hab]
    rfl
  | none =>
    rw [hab] at h
    simp only [optStep] at h
    have hba : cmp b a = none := by
      have h2 := (hcong _ _ hab b).2
      rw [h2, hr]
    rw [hba]
    simp only [optStep]
    exact ih _ _ h

theorem optStep_negtrans_step {cmp : Header → Header → Option Bool} (hc : CmpGood cmp)
    {rest : Header → Header → Bool}
    (ih : ∀ a b c, rest b a = false → rest c b = false → rest c a = false) :
    ∀ a b c, optStep (cmp b a) (rest b a) = false → optStep (cmp c b) (rest c b) = false →
      optStep (cmp c a) (rest c a) = false := by
  intro a b c h1 h2
  obtain ⟨hr, ha, hcong, ht⟩ := hc
  cases hba : cmp b a with
  | some t1 =>
    rw [hba] at h1
    simp only [optStep] at h1
    subst h1
    have hab : cmp a b = some true := by simpa using ha _ _ _ hba
    cases hcb : cmp c b with
    | some t2 =>
      rw [hcb] at h2
      simp only [optStep] at h2
      subst h2
      have hbc : cmp b c = some true := by simpa using ha _ _ _ hcb
      have hac : cmp a c = some true := ht _ _ _ hab hbc
      have hca : cmp c a = some false := by simpa using ha _ _ _ hac
      rw [hca]
      rfl
    | none =>
      have h3 := (hcong _ _ hcb a).1
      rw [h3, hba]
      rfl
  | none =>
    rw [hba] at h1
    simp only [optStep] at h1
    cases hcb : cmp c b with
    | some t2 =>
      rw [hcb] at h2
      simp only [optStep] at h2
      subst h2
      have h3 := (hcong _ _ hba c).2
      rw [← h3, hcb]
      rfl
    | none =>
      rw [hcb] at h2
      simp only [optStep] at h2
      have h3 := (hcong _ _ hba c).2
      have hca : cmp c a = none := by rw [← h3, hcb]
      rw [hca]
      simp only [optStep]
      exact ih _ _ _ h1 h2

theorem headerLess_asym (keys : List String) :
    ∀ a b, headerLess keys a b = true → headerLess keys b a = false := by
  induction keys with
  | nil => intro a b h; simp [headerLess] at h
  | cons key ks ih =>
    rcases keyCmp_good_or_false key with hg | hf
    · intro a b h
      exact optStep_asym_step hg ih a b h
    · intro a b h
      rw [show headerLess (key :: ks) a b = optStep (keyCmp key a b) (headerLess ks a b)
        from rfl, hf a b] at h
      simp [optStep] at h

theorem headerLess_negtrans (keys : List String) :
    ∀ a b c, headerLess keys b a = false → headerLess keys c b = false →
      headerLess keys c a = false := by
  induction keys with
  | nil => intro a b c _ _; rfl
  | cons key ks ih =>
    rcases keyCmp_good_or_false key with hg | hf
    · intro a b c h1 h2
      exact optStep_negtrans_step hg ih a b c h1 h2
    · intro a b c _ _
      rw [show headerLess (key :: ks) c a = optStep (keyCmp key c a) (headerLess ks c a)
        from rfl, hf c a]
      rfl

/-- C5: for every key list accepted by `ParseSortKeys`, sorting is a
permutation of its input and is idempotent. -/
theorem claim_c5_sortHeaders (xs : List Header) (s : String) (k : List String)
    (_hk : parseSortKeys s = .ok k) :
    (SortHeaders xs k).Perm xs ∧
    SortHeaders (SortHeaders xs k) k = SortHeaders xs k := by
  haveI htot : IsTotal Header (fun a b : Header => headerLess k b a = false) := by
    constructor
    intro a b
    by_cases h : headerLess k b a = false
    · exact Or.inl h
    · right
      have htrue : headerLess k b a = true := by
        cases hh : headerLess k b a with
        | false => exact absurd hh h
        | true => rfl
      exact headerLess_asym k b a htrue
  haveI htr : IsTrans Header (fun a b : Header => headerLess k b a = false) :=
    ⟨fun a b c h1 h2 => headerLess_negtrans k a b c h1 h2⟩
  constructor
  · unfold SortHeaders
    exact List.perm_insertionSort _ xs
  · unfold SortHeaders
    exact List.Sorted.insertionSort_eq (List.sorted_insertionSort _ _)

/-- Witness for C5 at a concrete input. -/
theorem claim_c5_sortHeaders_witness :
    (SortHeaders [exHdr2, exHdr1] ["CreationTime"]).Perm [exHdr2, exHdr1] ∧
    SortHeaders (SortHeaders [exHdr2, exHdr1] ["CreationTime"]) ["CreationTime"] =
      SortHeaders [exHdr2, exHdr1] ["CreationTime"] :=
  claim_c5_sortHeaders [exHdr2, exHdr1] "CreationTime" ["CreationTime"] (by rfl)

/-! ## Claim C3: header serialization round trip -/

theorem parseNat_encNat : ∀ n r, parseNat (encNat n ++ r) = some (n, r) := by
  intro n
  induction n using Nat.strong_induction_on with
  | _ n ih =>
    intro r
    rw [encNat]
    by_cases h : n < 128
    · rw [if_pos h]
      simp [parseNat, h]
    · rw [if_neg h]
      have hrec := ih (n / 128) (Nat.div_lt_self (by omega) (by omega)) r
      rw [List.cons_append]
      simp only [parseNat, hrec]
      rw [if_neg (show ¬ (n % 128 + 128 < 128) from by omega)]
      have heq : n / 128 * 128 + (n % 128 + 128 - 128) = n := by omega
      rw [heq]

theorem parseCount_encs {α : Type} (p : List Nat → Option (α × List Nat))
    (enc : α → List Nat) (hp : ∀ (x : α) r, p (enc x ++ r) = some (x, r)) :
    ∀ (xs : List α) r, parseCount p xs.length ((xs.map enc).flatten ++ r) = some (xs, r) := by
  intro xs
  induction xs with
  | nil => intro r; simp [parseCount]
  | cons x xs ih =>
    intro r
    rw [List.map_cons, List.flatten_cons, List.length_cons, List.append_assoc]
    simp only [parseCount, hp x, ih r]

theorem parseListWith_enc {α : Type} (p : List Nat → Option (α × List Nat))
    (enc : α → List Nat) (hp : ∀ (x : α) r, p (enc x ++ r) = some (x, r)) :
    ∀ (xs : List α) r, parseListWith p (encListWith enc xs ++ r) = some (xs, r) := by
  intro xs r
  rw [encListWith, List.append_assoc]
  simp only [parseListWith, parseNat_encNat]
  exact parseCount_encs p enc hp xs r

theorem parseChar_encChar : ∀ (c : Char) r, parseChar (encChar c ++ r) = some (c, r) := by
  intro c r
  simp only [parseChar, encChar, parseNat_encNat, Char.ofNat_toNat]

theorem parseString_encString : ∀ (s : String) r,
    parseString (encString s ++ r) = some (s, r) := by
  intro s r
  simp only [parseString, encString,
    parseListWith_enc parseChar encChar parseChar_encChar]

theorem parseChecksum_encChecksum : ∀ (c : Checksum) r,
    parseChecksum (encChecksum c ++ r) = some (c, r) := by
  intro c r
  simp only [parseChecksum, encChecksum,
    parseListWith_enc parseNat encNat parseNat_encNat]
  simp [c.property]

theorem parseIdentity_encIdentity : ∀ (i : Identity) r,
    parseIdentity (encIdentity i ++ r) = some (i, r) := by
  intro i r
  rw [encIdentity, List.append_assoc]
  simp only [parseIdentity, parseListWith_enc parseNat encNat parseNat_encNat]

theorem parseKeyValue_encKeyValue : ∀ (kv : KeyValue) r,
    parseKeyValue (encKeyValue kv ++ r) = some (kv, r) := by
  intro kv r
  rw [encKeyValue, List.append_assoc]
  simp only [parseKeyValue, parseString_encString]

theorem parseImporter_encImporter : ∀ (im : Importer) r,
    parseImporter (encImporter im ++ r) = some (im, r) := by
  intro im r
  rw [encImporter, List.append_assoc, List.append_assoc]
  simp only [parseImporter, parseString_encString]

theorem parseSummary_encSummary : ∀ (s : Summary) r,
    parseSummary (encSummary s ++ r) = some (s, r) := by
  intro s r
  rw [encSummary, List.append_assoc, List.append_assoc]
  simp only [parseSummary, parseNat_encNat]

theorem parseHeader_serialize : ∀ (h : Header) r,
    parseHeader (h.serialize ++ r) = some (h, r) := by
  intro h r
  rw [Header.serialize]
  simp only [List.append_assoc]
  simp only [parseHeader, parseChecksum_encChecksum, parseString_encString,
    parseNat_encNat, parseIdentity_encIdentity, parseImporter_encImporter,
    parseSummary_encSummary,
    parseListWith_enc parseString encString parseString_encString,
    parseListWith_enc parseKeyValue encKeyValue parseKeyValue_encKeyValue]

/-- C3: deserializing the result of serializing a header yields the
header back, field for field; in particular the snapshot id bytes are
unchanged by the round trip. -/
theorem claim_c3_header_roundtrip (h : Header) :
    NewFromBytes h.serialize = some h ∧
    (NewFromBytes h.serialize).map Header.snapshotID = some h.snapshotID := by
  have hmain : parseHeader h.serialize = some (h, []) := by
    have h2 := parseHeader_serialize h []
    rwa [List.append_nil] at h2
  constructor
  · rw [NewFromBytes, hmain]
  · rw [NewFromBytes, hmain]
    rfl

/-- C10: `addPathname` returns the previously assigned id for an
already-interned pathname; for a fresh pathname it inserts the pathname
into both `Pathnames` and `pathnamesInverse` under the next sequential
id, bumps the counter, and returns 0 (the zero value) instead of the id
it just assigned. -/
theorem claim_c10_addPathname (fs : Filesystem) (p : String) :
    (∀ id, fs.Pathnames.lookup p = some id → fs.addPathname p = (id, fs)) ∧
    (fs.Pathnames.lookup p = none →
      (fs.addPathname p).1 = 0 ∧
      (fs.addPathname p).2.Pathnames.lookup p = some fs.pathnameID ∧
      (fs.addPathname p).2.pathnamesInverse.lookup fs.pathnameID = some p ∧
      (fs.addPathname p).2.pathnameID = fs.pathnameID + 1) := by
  constructor
  · intro id h
    simp [Filesystem.addPathname, h]
  · intro h
    simp [Filesystem.addPathname, h, List.lookup]

/-- A small concrete filesystem used by the C10 witness: `"a"` is
interned with id 5, the counter stands at 7. -/
def cfs10 : Filesystem :=
  { newFilesystem with Pathnames := [("a", 5)], pathnamesInverse := [(5, "a")], pathnameID := 7 }

/-- Witness for C10 at a concrete input. -/
theorem claim_c10_addPathname_witness :
    cfs10.addPathname "a" = (5, cfs10) ∧
    (cfs10.addPathname "b").1 = 0 ∧
    (cfs10.addPathname "b").2.Pathnames.lookup "b" = some 7 ∧
    (cfs10.addPathname "b").2.pathnamesInverse.lookup 7 = some "b" ∧
    (cfs10.addPathname "b").2.pathnameID = 8 :=
  ⟨(claim_c10_addPathname cfs10 "a").1 5 rfl,
   ((claim_c10_addPathname cfs10 "b").2 rfl).1,
   ((claim_c10_addPathname cfs10 "b").2 rfl).2.1,
   ((claim_c10_addPathname cfs10 "b").2 rfl).2.2.1,
   ((claim_c10_addPathname cfs10 "b").2 rfl).2.2.2⟩

/-! ## Claims C1 and C2: symmetric encryption -/

theorem chunkify_flatten_fuel :
    ∀ n (s : List Nat), s.length ≤ n → (chunkify s).flatten = s := by
  intro n
  induction n with
  | zero =>
    intro s hlen
    have hs : s = [] := List.length_eq_zero.mp (Nat.le_zero.mp hlen)
    subst hs
    simp [chunkify]
  | succ n ih =>
    intro s hlen
    by_cases h : s = []
    · subst h
      simp [chunkify]
    · rw [chunkify, dif_neg h, List.flatten_cons,
        ih (s.drop chunkSize) (by
          have hpos : 0 < s.length := List.length_pos.mpr h
          have hcs : chunkSize = 1024 := rfl
          rw [List.length_drop]
          omega)]
      exact List.take_append_drop chunkSize s

theorem chunkify_flatten (s : List Nat) : (chunkify s).flatten = s :=
  chunkify_flatten_fuel s.length s le_rfl

theorem chunkify_le_fuel :
    ∀ n (s : List Nat), s.length ≤ n → ∀ c ∈ chunkify s, c.length ≤ chunkSize := by
  intro n
  induction n with
  | zero =>
    intro s hlen c hc
    have hs : s = [] := List.length_eq_zero.mp (Nat.le_zero.mp hlen)
    subst hs
    simp [chunkify] at hc
  | succ n ih =>
    intro s hlen c hc
    by_cases h : s = []
    · subst h
      simp [chunkify] at hc
    · rw [chunkify, dif_neg h] at hc
      rcases List.mem_cons.mp hc with rfl | hc2
      · simp only [List.length_take]
        exact inf_le_left
      · exact ih (s.drop chunkSize) (by
          have hpos : 0 < s.length := List.length_pos.mpr h
          have hcs : chunkSize = 1024 := rfl
          rw [List.length_drop]
          omega) c hc2

theorem openChunks_map_seal (G : AEAD) (sk dn : List Nat)
    (h : ∀ m, G.Open sk dn (G.Seal sk dn m) = some m) :
    ∀ cs : List (List Nat), openChunks G sk dn (cs.map (G.Seal sk dn)) = some cs.flatten := by
  intro cs
  induction cs with
  | nil => rfl
  | cons c cs ih =>
    simp only [List.map_cons, openChunks, h c, ih, List.flatten_cons]

/-- C1: for every byte stream `s`, every valid 32-byte key and the random draws of
`EncryptStream`, under the AEAD contract for GCM (open-after-seal round trip and
ciphertext length = plaintext length + overhead), `EncryptStream` lays the stream out as
subkey nonce ++ sealed subkey ++ data nonce ++ sealed chunks of at most `chunkSize`
(1 KiB) plaintext each, and reading all of `DecryptStream` on that output yields
exactly `s`. -/
theorem claim_c1_streamRoundtrip (G : AEAD) (key subkey subkeyNonce dataNonce s : List Nat)
    (hkey : key.length = 32) (hsub : subkey.length = 32)
    (hsn : subkeyNonce.length = gcmNonceSize) (hdn : dataNonce.length = gcmNonceSize)
    (hlen : ∀ k n m, (G.Seal k n m).length = m.length + gcmOverhead)
    (hopen : ∀ k n m, G.Open k n (G.Seal k n m) = some m) :
    encryptStream G key subkey subkeyNonce dataNonce s =
      some (subkeyNonce ++ G.Seal key subkeyNonce subkey ++ dataNonce,
            (chunkify s).map (G.Seal subkey dataNonce)) ∧
    (∀ c ∈ chunkify s, c.length ≤ chunkSize) ∧
    decryptStream G key (subkeyNonce ++ G.Seal key subkeyNonce subkey ++ dataNonce)
      ((chunkify s).map (G.Seal subkey dataNonce)) = some s := by
  have hok1 : aesKeyOk key = true := by simp [aesKeyOk, hkey]
  have hok2 : aesKeyOk subkey = true := by simp [aesKeyOk, hsub]
  have hslen : (G.Seal key subkeyNonce subkey).length = gcmOverhead + 32 := by
    rw [hlen, hsub]
    exact Nat.add_comm 32 gcmOverhead
  refine ⟨?_, chunkify_le_fuel s.length s le_rfl, ?_⟩
  · simp [encryptStream, hok1, hok2]
  · have ht1 : (subkeyNonce ++ G.Seal key subkeyNonce subkey ++ dataNonce).take gcmNonceSize =
        subkeyNonce := by
      rw [List.append_assoc]
      exact List.take_left' hsn
    have ht2 : (subkeyNonce ++ G.Seal key subkeyNonce subkey ++ dataNonce).drop gcmNonceSize =
        G.Seal key subkeyNonce subkey ++ dataNonce := by
      rw [List.append_assoc]
      exact List.drop_left' hsn
    have ht3 : (G.Seal key subkeyNonce subkey ++ dataNonce).take (gcmOverhead + 32) =
        G.Seal key subkeyNonce subkey := List.take_left' hslen
    have ht4 : (G.Seal key subkeyNonce subkey ++ dataNonce).drop (gcmOverhead + 32) =
        dataNonce := List.drop_left' hslen
    have ht5 : dataNonce.take gcmNonceSize = dataNonce := by
      rw [← hdn]
      exact List.take_length dataNonce
    have hhl : gcmNonceSize + (gcmOverhead + 32) + gcmNonceSize ≤
        (subkeyNonce ++ G.Seal key subkeyNonce subkey ++ dataNonce).length := by
      rw [List.length_append, List.length_append, hsn, hdn, hslen]
    simp only [decryptStream, ht1, ht2, ht3, ht4, ht5]
    rw [if_pos hok1, if_pos hhl, hopen key subkeyNonce subkey]
    dsimp only
    rw [if_pos hok2, openChunks_map_seal G subkey dataNonce (hopen subkey dataNonce) (chunkify s),
      chunkify_flatten]

/-- Witness for C1: concrete AEAD, key, subkey, nonces and the stream `[9, 8, 7]`. -/
theorem claim_c1_witness :
    decryptStream G0 (List.replicate 32 0)
      (List.replicate gcmNonceSize 1 ++
        G0.Seal (List.replicate 32 0) (List.replicate gcmNonceSize 1) (List.replicate 32 2) ++
        List.replicate gcmNonceSize 3)
      ((chunkify [9, 8, 7]).map (G0.Seal (List.replicate 32 2) (List.replicate gcmNonceSize 3))) =
      some [9, 8, 7] :=
  (claim_c1_streamRoundtrip G0 (List.replicate 32 0) (List.replicate 32 2)
    (List.replicate gcmNonceSize 1) (List.replicate gcmNonceSize 3) [9, 8, 7]
    (by simp) (by simp) (by simp) (by simp)
    (fun k n m => by simp [G0, gcmOverhead])
    (fun k n m => by simp [G0, gcmOverhead, Nat.le_add_left, Nat.add_sub_cancel,
      List.take_left])).2.2

theorem decB64Char_encB64Char : ∀ d : Nat, d < 64 → decB64Char (encB64Char d) = some d := by
  decide

theorem encB64Char_ne_pad : ∀ d : Nat, d < 64 → ¬encB64Char d = '=' := by
  decide

theorem decB64_encB64_fuel :
    ∀ n (bs : List Nat), bs.length ≤ n → (∀ b ∈ bs, b < 256) → bs.length % 3 = 0 →
      decB64 (encB64 bs) = some bs := by
  intro n
  induction n with
  | zero =>
    intro bs hlen _ _
    have hs : bs = [] := List.length_eq_zero.mp (Nat.le_zero.mp hlen)
    subst hs
    rfl
  | succ n ih =>
    intro bs hlen hb h3
    rcases bs with _ | ⟨a, _ | ⟨b, _ | ⟨c, rest⟩⟩⟩
    · rfl
    · simp at h3
    · simp at h3
    · have ha : a < 256 := hb a (by simp)
      have hbb : b < 256 := hb b (by simp)
      have hc : c < 256 := hb c (by simp)
      have hrest : decB64 (encB64 rest) = some rest := by
        refine ih rest ?_ (fun x hx => hb x (by simp [hx])) ?_
        · simp only [List.length_cons] at hlen
          omega
        · simp only [List.length_cons] at h3 ⊢
          omega
      have h1 : a / 4 < 64 := by omega
      have h2 : a % 4 * 16 + b / 16 < 64 := by omega
      have h3' : b % 16 * 4 + c / 64 < 64 := by omega
      have h4 : c % 64 < 64 := by omega
      simp only [encB64, decB64, decB64Char_encB64Char _ h1, decB64Char_encB64Char _ h2,
        decB64Char_encB64Char _ h3', decB64Char_encB64Char _ h4,
        encB64Char_ne_pad _ h3', encB64Char_ne_pad _ h4, if_false, hrest]
      have e1 : a / 4 * 4 + (a % 4 * 16 + b / 16) / 16 = a := by omega
      have e2 : (a % 4 * 16 + b / 16) % 16 * 16 + (b % 16 * 4 + c / 64) / 4 = b := by omega
      have e3 : (b % 16 * 4 + c / 64) % 4 * 64 + c % 64 = c := by omega
      rw [e1, e2, e3]

theorem decB64_encB64 (bs : List Nat) (hb : ∀ b ∈ bs, b < 256) (h3 : bs.length % 3 = 0) :
    decB64 (encB64 bs) = some bs :=
  decB64_encB64_fuel bs.length bs le_rfl hb h3

/-- C2: for every secret produced by `BuildSecretFromPassphrase` with passphrase `q`,
16-byte salt and 32-byte-valued KDF, the stored salt and key bytes are recovered
exactly by base64 decoding, and `DeriveSecret` with passphrase `p` returns the 32-byte
derived key iff the key recomputed from `p` with the stored salt equals the stored key
bytes; in particular it succeeds for `p = q` (the zero-byte passphrase included) and
reports the bad-passphrase error for any non-matching `p`. -/
theorem claim_c2_deriveSecret (kdf : List Nat → List Nat → List Nat) (salt p q : List Nat)
    (hsl : salt.length = saltSize) (hsb : ∀ b ∈ salt, b < 256)
    (hkl : ∀ a t, (kdf a t).length = 32) (hkb : ∀ a t b, b ∈ kdf a t → b < 256) :
    decB64 (BuildSecretFromPassphrase kdf salt q).data = some (salt ++ kdf q salt) ∧
    (DeriveSecret kdf p (BuildSecretFromPassphrase kdf salt q) = .ok (kdf p salt) ↔
      kdf p salt = kdf q salt) ∧
    (kdf p salt ≠ kdf q salt →
      DeriveSecret kdf p (BuildSecretFromPassphrase kdf salt q) = .error .badPassphrase) ∧
    DeriveSecret kdf q (BuildSecretFromPassphrase kdf salt q) = .ok (kdf q salt) ∧
    (kdf p salt).length = 32 := by
  have hdec : decB64 (BuildSecretFromPassphrase kdf salt q).data = some (salt ++ kdf q salt) := by
    show decB64 (encB64 (salt ++ kdf q salt)) = some (salt ++ kdf q salt)
    refine decB64_encB64 _ ?_ ?_
    · intro x hx
      rcases List.mem_append.mp hx with h | h
      · exact hsb x h
      · exact hkb q salt x h
    · rw [List.length_append, hsl, hkl]
      decide
  have hsalt : (salt ++ kdf q salt).take saltSize = salt := List.take_left' hsl
  have hkeyb : (salt ++ kdf q salt).drop saltSize = kdf q salt := List.drop_left' hsl
  have hcompute : ∀ pp : List Nat,
      DeriveSecret kdf pp (BuildSecretFromPassphrase kdf salt q) =
        if kdf pp salt = kdf q salt then .ok (kdf pp salt) else .error .badPassphrase := by
    intro pp
    simp only [DeriveSecret, hdec, hsalt, hkeyb]
  refine ⟨hdec, ?_, ?_, ?_, hkl p salt⟩
  · rw [hcompute p]
    constructor
    · intro hok
      by_cases h : kdf p salt = kdf q salt
      · exact h
      · rw [if_neg h] at hok
        exact absurd hok (by simp)
    · intro h
      rw [if_pos h]
  · intro h
    rw [hcompute p, if_neg h]
  · rw [hcompute q, if_pos rfl]

/-- Witness for C2: constant KDF, concrete 16-byte salt, empty passphrases. -/
theorem claim_c2_witness :
    DeriveSecret (fun _ _ => List.replicate 32 5) []
      (BuildSecretFromPassphrase (fun _ _ => List.replicate 32 5) (List.replicate 16 7) []) =
      .ok (List.replicate 32 5) :=
  (claim_c2_deriveSecret (fun _ _ => List.replicate 32 5) (List.replicate 16 7) [] []
    (by simp [saltSize])
    (fun x hx => by rw [List.eq_of_mem_replicate hx]; decide)
    (fun _ _ => by simp)
    (fun _ _ x hx => by rw [List.eq_of_mem_replicate hx]; decide)).2.2.2.1

end Plakar
